import Mathlib

/-
Verification development for the FEII repository (bank call-report panel
preparation in `1_process_data.py` / `helper_functions.py`, and LaTeX table
post-processing in `3_make_latex.py`).

Texts are modelled as `List Char`.  The Python scripts read fragment files
with `Path.read_text()`, which performs universal-newline translation, so the
texts seen by the table code use `'\n'` as the line break; line splitting is
modelled on `'\n'`.  `str.strip`/`str.rstrip` strip the six ASCII whitespace
characters recognised by Python.
-/

namespace FEII

abbrev Str := List Char

def lstr (x : String) : Str := x.toList

/-- Python `c.isspace()` for the characters `str.strip` removes. -/
def pyIsWs (c : Char) : Bool :=
  c == ' ' || c == '\t' || c == '\n' || c == '\x0d' || c == '\x0b' || c == '\x0c'

/-- Python `s.lstrip()`. -/
def pyLstrip (s : Str) : Str := s.dropWhile pyIsWs

/-- Python `s.rstrip()`. -/
def pyRstrip (s : Str) : Str := (s.reverse.dropWhile pyIsWs).reverse

/-- Python `s.strip()`. -/
def pyStrip (s : Str) : Str := pyRstrip (pyLstrip s)

/-- Boolean prefix test (`b` starts with `p`). -/
def isPrefB : Str → Str → Bool
  | [], _ => true
  | _ :: _, [] => false
  | a :: as, b :: bs => a == b && isPrefB as bs

/-- Python `suf` `in`-suffix test: `s.endswith(suf)`. -/
def endsWithL (suf s : Str) : Bool := isPrefB suf.reverse s.reverse

/-- Python substring test `p in s`. -/
def occursB (p : Str) : Str → Bool
  | [] => p.isEmpty
  | c :: cs => isPrefB p (c :: cs) || occursB p cs

/-- Recursion core of `replaceL`; the fuel only serves structural
termination, and any amount at least `s.length` gives the same result. -/
def replaceAux (p r : Str) : ℕ → Str → Str
  | 0, s => s
  | fuel + 1, s =>
    match s with
    | [] => []
    | c :: cs =>
      if isPrefB p (c :: cs) then r ++ replaceAux p r fuel (cs.drop (p.length - 1))
      else c :: replaceAux p r fuel cs

/-- Python `s.replace(p, r)` for a non-empty pattern `p` (left-to-right,
non-overlapping, all occurrences).  With an empty pattern the Python
behaviour differs, but the scripts never use one. -/
def replaceL (p r : Str) (s : Str) : Str :=
  if p.isEmpty then s else replaceAux p r s.length s

/-- Python `s.split(ch)` for a one-character separator. -/
def splitCh (ch : Char) : Str → List Str
  | [] => [[]]
  | c :: cs =>
    if c == ch then [] :: splitCh ch cs
    else
      match splitCh ch cs with
      | [] => [[c]]
      | h :: t => (c :: h) :: t

/-- Python `text.splitlines()` on universal-newline text (breaks are `'\n'`). -/
def splitlinesL (t : Str) : List Str :=
  match t with
  | [] => []
  | _ =>
    let ps := splitCh '\n' t
    if ps.getLast? == some ([] : Str) then ps.dropLast else ps

/-- Python `"\n".join(lines)`. -/
def joinNL (ls : List Str) : Str := List.intercalate (lstr "\n") ls

/-- Python `sep.join(xs)`. -/
def joinWith (sep : Str) (xs : List Str) : Str := List.intercalate sep xs

-- ============================================================
-- 3_make_latex.py : shared row/cell extraction
-- ============================================================

/-- Placeholder used by `extract_values_from_row` to shield `\&`. -/
def AMP_PLACEHOLDER : Str := lstr "__AMP__PLACEHOLDER__"

def ESC_AMP : Str := lstr "\\&"

def ROW_TERM : Str := lstr "\\\\"

/-- Per-cell post-processing inside `extract_values_from_row`: `p.rstrip()`,
strip a trailing `\\` (then `rstrip` again), restore `\&`, `p.strip()`. -/
def processPart (p0 : Str) : Str :=
  let p1 := pyRstrip p0
  let p2 := if endsWithL ROW_TERM p1 then pyRstrip (p1.take (p1.length - 2)) else p1
  let p3 := replaceL AMP_PLACEHOLDER ESC_AMP p2
  pyStrip p3

/-- Model of `extract_values_from_row` (3_make_latex.py, lines 186-219). -/
def extract_values_from_row (line : Str) (skip_first : Bool) : List Str :=
  let tmp := replaceL ESC_AMP AMP_PLACEHOLDER line
  let parts := splitCh '&' tmp
  let parts := if skip_first then parts.drop 1 else parts
  (parts.map processPart).filter (fun p => !p.isEmpty)

-- ============================================================
-- 3_make_latex.py : configuration constants
-- ============================================================

def INTERACTION_LABEL : Str := lstr "$\\Delta FF_t \\times$ Bank HHI"

def replacements_panelA : List (Str × Str) :=
  [(lstr "d\\_total\\_deposits", lstr "\\makecell[c]\x7b$\\Delta$Total\\\\deposits\x7d"),
   (lstr "d\\_deposit\\_spread", lstr "\\makecell[c]\x7b$\\Delta$Deposit\\\\spread\x7d"),
   (lstr "d\\_savings\\_deposits", lstr "\\makecell[c]\x7b$\\Delta$Savings\\\\deposits\x7d"),
   (lstr "d\\_time\\_deposits", lstr "\\makecell[c]\x7b$\\Delta$Time\\\\deposits\x7d"),
   (lstr "d\\_wholesale\\_funding", lstr "\\makecell[c]\x7b$\\Delta$Wholesale\\\\funding\x7d"),
   (lstr "d\\_total\\_liabilities", lstr "\\makecell[c]\x7b$\\Delta$Total\\\\liabilities\x7d")]

def replacements_panelB : List (Str × Str) :=
  [(lstr "d\\_total\\_assets", lstr "\\makecell[c]\x7b$\\Delta$Total\\\\assets\x7d"),
   (lstr "d\\_cash", lstr "\\makecell[c]\x7b$\\Delta$Cash\x7d"),
   (lstr "d\\_total\\_securities", lstr "\\makecell[c]\x7b$\\Delta$Securities\x7d"),
   (lstr "d\\_total\\_loans", lstr "\\makecell[c]\x7b$\\Delta$Total\\\\loans\x7d"),
   (lstr "d\\_re\\_loans", lstr "\\makecell[c]\x7b$\\Delta$RE\\\\loans\x7d"),
   (lstr "d\\_ci\\_loans", lstr "\\makecell[c]\x7b$\\Delta$C\\&I\\\\loans\x7d")]

def FE_REPLACEMENTS : List (Str × Str) :=
  [(lstr "rssdid fixed effects", lstr "Bank f.e."),
   (lstr "rssdid-post2008 fixed effects", lstr "Bank $\\times$ post-2008 f.e."),
   (lstr "dateq fixed effects", lstr "Quarter f.e.")]

def FE_SPECS : List (Str × Bool × Bool × Bool) :=
  [(lstr "mainFE", true, true, true),
   (lstr "noPost2008FE", true, true, false),
   (lstr "noBankFE", false, true, true),
   (lstr "noQuarterFE", true, false, true),
   (lstr "onlyBankFE", true, false, false),
   (lstr "quarterOnlyFE", false, true, false)]

def FILTERS : List (Str × Str) :=
  [(lstr "none", lstr "None"),
   (lstr "growth", lstr "Growth"),
   (lstr "winsor", lstr "Winsor"),
   (lstr "both", lstr "\\makecell\x7bGrowth+\\\\Winsor\x7d")]

-- ============================================================
-- 3_make_latex.py : fragment parsing
-- ============================================================

/-- Decimal rendering of a natural number, as Python `str`/f-string
formatting writes it. -/
def digitChar (n : ℕ) : Char := Char.ofNat (48 + n)

def natDigitsAux : ℕ → ℕ → Str
  | 0, _ => []
  | fuel + 1, n =>
    if n < 10 then [digitChar n]
    else natDigitsAux fuel (n / 10) ++ [digitChar (n % 10)]

def natDigits (n : ℕ) : Str := natDigitsAux (n + 1) n

/-- Failure modes of the table-assembly functions (uncaught Python
exceptions: `StopIteration` from a bare `next`, `IndexError` from
`header_lines[i]`, explicit `ValueError`s, `FileNotFoundError`). -/
inductive PErr where
  | stop
  | index
  | value (what : Str)
  | fileNotFound (name : Str)
deriving DecidableEq, Repr

/-- First index `≥ start` whose line satisfies `p`. -/
def findIdxGe (start : ℕ) (p : Str → Bool) (lines : List Str) : Option ℕ :=
  (List.findIdx? p (lines.drop start)).map (fun j => start + j)

def containsAmp (l : Str) : Bool := l.any (fun c => c == '&')

structure Parsed where
  header_vars : List Str
  header_nums : List Str
  coefs : List Str
  ses : List Str
  obs : List Str
deriving DecidableEq, Repr

/-- Model of `parse_panel_file_with_obs` (3_make_latex.py, lines 394-440),
acting on the file's text. -/
def parse_panel_file_with_obs (text : Str) : Except PErr Parsed := do
  let lines := splitlinesL text
  let some top_idx := List.findIdx? (fun l => occursB (lstr "\\toprule") l) lines
    | .error .stop
  let some mid_idx := findIdxGe (top_idx + 1) (fun l => occursB (lstr "\\midrule") l) lines
    | .error .stop
  let header_lines := (lines.drop (top_idx + 1)).take (mid_idx - (top_idx + 1))
  let h0 :: rest := header_lines
    | .error .index
  let h1 :: _ := rest
    | .error .index
  let header_vars := extract_values_from_row h0 true
  let header_nums := extract_values_from_row h1 true
  let some int_idx := List.findIdx? (fun l => occursB INTERACTION_LABEL l) lines
    | .error .stop
  let coef_line := (lines.drop int_idx).headD []
  let some se_idx := findIdxGe (int_idx + 1) containsAmp lines
    | .error (.value (lstr "SE row"))
  let se_line := (lines.drop se_idx).headD []
  let some obs_idx := List.findIdx? (fun l => occursB (lstr "Observations") l) lines
    | .error .stop
  let obs_line := (lines.drop obs_idx).headD []
  .ok { header_vars := header_vars, header_nums := header_nums,
        coefs := extract_values_from_row coef_line true,
        ses := extract_values_from_row se_line true,
        obs := extract_values_from_row obs_line true }

/-- Fallback interaction-row predicate of `parse_panel_file_fe`
(3_make_latex.py, lines 256-262). -/
def feFallback (l : Str) : Bool :=
  (occursB (lstr "l1\\_herfdepcty") l || occursB (lstr "l1_herfdepcty") l) &&
  (occursB (lstr "dFF") l || occursB (lstr "d_FF") l ||
   occursB (lstr " x dFF") l || occursB (lstr "\\times dFF") l)

/-- Model of `parse_panel_file_fe` (3_make_latex.py, lines 226-283); there is
no Observations row and the interaction row has a fallback search. -/
def parse_panel_file_fe (text : Str) : Except PErr Parsed := do
  let lines := splitlinesL text
  let some top_idx := List.findIdx? (fun l => occursB (lstr "\\toprule") l) lines
    | .error .stop
  let some mid_idx := findIdxGe (top_idx + 1) (fun l => occursB (lstr "\\midrule") l) lines
    | .error .stop
  let header_lines := (lines.drop (top_idx + 1)).take (mid_idx - (top_idx + 1))
  let h0 :: rest := header_lines
    | .error .index
  let h1 :: _ := rest
    | .error .index
  let header_vars := extract_values_from_row h0 true
  let header_nums := extract_values_from_row h1 true
  let int_found :=
    match List.findIdx? (fun l => occursB INTERACTION_LABEL l) lines with
    | some i => some i
    | none => List.findIdx? feFallback lines
  let some int_idx := int_found
    | .error (.value (lstr "interaction row"))
  let coef_line := (lines.drop int_idx).headD []
  let some se_idx := findIdxGe (int_idx + 1) containsAmp lines
    | .error (.value (lstr "SE row"))
  let se_line := (lines.drop se_idx).headD []
  .ok { header_vars := header_vars, header_nums := header_nums,
        coefs := extract_values_from_row coef_line true,
        ses := extract_values_from_row se_line true,
        obs := [] }

-- ============================================================
-- 3_make_latex.py : composite builders
-- ============================================================

/-- Available fragment files, as an association list from file name to text
(the `tables/` directory). -/
abbrev Files := List (Str × Str)

def lookupFile (files : Files) (name : Str) : Option Str :=
  (files.find? (fun kv => kv.1 == name)).map Prod.snd

/-- Source file name `t8_<panel>_<sample>_<tag>.tex`. -/
def srcName (panel sample tag : Str) : Str :=
  lstr "t8_" ++ panel ++ lstr "_" ++ sample ++ lstr "_" ++ tag ++ lstr ".tex"

/-- Read and parse one fragment per axis value; a missing file or a parse
failure is fatal for the whole build. -/
def gatherFrags (parse : Str → Except PErr Parsed) (files : Files)
    (names : List Str) : Except PErr (List Parsed) :=
  match names with
  | [] => .ok []
  | n :: rest => do
    let some text := lookupFile files n
      | .error (.fileNotFound n)
    let p ← parse text
    let r ← gatherFrags parse files rest
    .ok (p :: r)

/-- Coefficient/SE stacked cell `\makecell{c \\ s}`. -/
def makeCell (c s : Str) : Str :=
  lstr "\\makecell\x7b" ++ c ++ lstr " \\\\ " ++ s ++ lstr "\x7d"

def beginTabularStar (col_spec : Str) : Str :=
  lstr "\\begin\x7btabular*\x7d\x7b\\textwidth\x7d\x7b@\x7b\\extracolsep\x7b\\fill\x7d\x7d" ++
  col_spec ++ lstr "@\x7b\x7d\x7d"

def multicolumnLine (n_cols : ℕ) : Str :=
  lstr "   \\multicolumn\x7b" ++ natDigits n_cols ++ lstr "\x7d\x7bc\x7d\x7b" ++
  INTERACTION_LABEL ++ lstr "\x7d\\\\"

/-- Source file names read by the filter-composite build. -/
def filterNames (sample_tag panel : Str) : List Str :=
  FILTERS.map (fun fl => srcName panel sample_tag fl.1)

/-- Source file names read by the FE-composite build. -/
def feNames (sample_tag filter_tag panel : Str) : List Str :=
  FE_SPECS.map (fun sp => srcName panel sample_tag (filter_tag ++ lstr "_" ++ sp.1))

/-- Model of `build_composite_panel_filters` (3_make_latex.py, lines
533-616).  Returns the output file name and text.  Headers are taken from
the first fragment; no cross-fragment header check is performed. -/
def build_composite_panel_filters (files : Files) (sample_tag panel : Str) :
    Except PErr (Str × Str) := do
  let ps ← gatherFrags parse_panel_file_with_obs files (filterNames sample_tag panel)
  let first := ps.headD ⟨[], [], [], [], []⟩
  let header_vars := first.header_vars
  let header_nums := first.header_nums
  let k := header_vars.length
  let n_cols := k + 2
  let col_spec := 'l' :: List.replicate k 'c' ++ ['c']
  let h1 := joinWith (lstr " & ") header_vars
  let h2 := joinWith (lstr " & ") header_nums
  let dataRows := (FILTERS.zip ps).map (fun x =>
    let f_label := x.1.2
    let info := x.2
    let n_str := (info.obs.filter (fun o => !o.isEmpty)).headD []
    let cells := (info.coefs.zip info.ses).map (fun cs => makeCell cs.1 cs.2)
    lstr "   " ++ f_label ++ lstr " & " ++ joinWith (lstr " & ") cells ++
      lstr " & " ++ n_str ++ lstr "\\\\")
  let out_lines :=
    [lstr "\\begingroup", lstr "\\centering", beginTabularStar col_spec,
     lstr "   \\toprule",
     lstr "   Filter & " ++ h1 ++ lstr " & Obs.\\\\",
     lstr "          & " ++ h2 ++ lstr " & \\\\",
     lstr "   \\midrule", multicolumnLine n_cols, lstr "   \\midrule"] ++
    dataRows ++
    [lstr "   \\bottomrule", lstr "\\end\x7btabular*\x7d", lstr "\\par\\endgroup"]
  .ok (lstr "t8_" ++ panel ++ lstr "_" ++ sample_tag ++ lstr "_composite.tex",
       joinNL out_lines)

def bankHeaderFE : Str := lstr "\\makecell[c]\x7bBank\\\\f.e.\x7d"

def quarterHeaderFE : Str := lstr "\\makecell[c]\x7bQuarter\\\\f.e.\x7d"

def postHeaderFE : Str := lstr "\\makecell[c]\x7bBank $\\times$\\\\2008 f.e.\x7d"

/-- Model of `build_composite_panel_fe` (3_make_latex.py, lines 286-386).
Same gathering pattern over the six FE-spec fragments; headers are taken
from the first fragment, with no cross-fragment header check. -/
def build_composite_panel_fe (files : Files) (sample_tag filter_tag panel : Str) :
    Except PErr (Str × Str) := do
  let ps ← gatherFrags parse_panel_file_fe files (feNames sample_tag filter_tag panel)
  let first := ps.headD ⟨[], [], [], [], []⟩
  let header_vars := first.header_vars
  let header_nums := first.header_nums
  let k := header_vars.length
  let n_cols := 3 + k
  let col_spec := List.replicate n_cols 'c'
  let h1_vars := joinWith (lstr " & ") header_vars
  let h2_nums := joinWith (lstr " & ") header_nums
  let dataRows := (FE_SPECS.zip ps).map (fun x =>
    let bank_symbol := if x.1.2.1 then lstr "Y" else []
    let quarter_symbol := if x.1.2.2.1 then lstr "Y" else []
    let post_symbol := if x.1.2.2.2 then lstr "Y" else []
    let info := x.2
    let cells := (info.coefs.zip info.ses).map (fun cs => makeCell cs.1 cs.2)
    lstr "   " ++ bank_symbol ++ lstr " & " ++ quarter_symbol ++ lstr " & " ++
      post_symbol ++ lstr " & " ++ joinWith (lstr " & ") cells ++ lstr "\\\\")
  let out_lines :=
    [lstr "\\begingroup", lstr "\\centering", beginTabularStar col_spec,
     lstr "   \\toprule",
     lstr "   " ++ bankHeaderFE ++ lstr " & " ++ quarterHeaderFE ++ lstr " & " ++
       postHeaderFE ++ lstr " & " ++ h1_vars ++ lstr "\\\\",
     lstr "           &               &                    & " ++ h2_nums ++ lstr "\\\\",
     lstr "   \\midrule", multicolumnLine n_cols, lstr "   \\midrule"] ++
    dataRows ++
    [lstr "   \\bottomrule", lstr "\\end\x7btabular*\x7d", lstr "\\par\\endgroup"]
  .ok (lstr "t8_" ++ panel ++ lstr "_" ++ sample_tag ++ lstr "_" ++ filter_tag ++
         lstr "_FEcomposite.tex",
       joinNL out_lines)

-- ============================================================
-- 3_make_latex.py : fragment cleanup (process_tex)
-- ============================================================

/-- Drop condition for the level-term row: a line mentioning the
concentration variable but not the interaction (`"dFF" not in line`); the
line after such a row (its SE line) is skipped as well. -/
def dropCondL1 (l : Str) : Bool :=
  (occursB (lstr "l1\\_herfdepcty") l || occursB (lstr "l1_herfdepcty") l) &&
  !occursB (lstr "dFF") l

def dropCondWithin (l : Str) : Bool :=
  occursB (lstr "Within Adjusted R") l || occursB (lstr "Within R$^2$") l

def dropCondFE (l : Str) : Bool :=
  FE_REPLACEMENTS.any (fun pr => occursB pr.1 l)

def dropAnyCond (l : Str) : Bool := dropCondL1 l || dropCondWithin l || dropCondFE l

/-- Line-dropping loop of `process_tex` (3_make_latex.py, lines 96-118),
including the `skip_next` flag that also removes the line following a
level-term row. -/
def dropLinesRec : List Str → List Str
  | [] => []
  | l :: ls =>
    if dropCondL1 l then
      match ls with
      | [] => []
      | _ :: rest => dropLinesRec rest
    else if dropCondWithin l || dropCondFE l then dropLinesRec ls
    else l :: dropLinesRec ls

def interactionPat : Str := lstr "l1\\_herfdepcty $\\times$ dFF"

def tabBeginPat : Str := lstr "\\begin\x7btabular\x7d\x7blcccccc\x7d"

def tabBeginRep : Str :=
  lstr "\\begin\x7btabular*\x7d\x7b\\textwidth\x7d\x7b@\x7b\\extracolsep\x7b\\fill\x7d\x7dlcccccc@\x7b\x7d\x7d"

def tabEndPat : Str := lstr "\\end\x7btabular\x7d"

def tabEndRep : Str := lstr "\\end\x7btabular*\x7d"

/-- Ordered list of textual substitutions done by `process_tex` after the
line-dropping pass: column-header relabels, fixed-effects relabels, the
interaction-row relabel, and the `tabular` → `tabular*` widening. -/
def texChain (mapping : List (Str × Str)) : List (Str × Str) :=
  mapping ++ FE_REPLACEMENTS ++
  [(interactionPat, INTERACTION_LABEL), (tabBeginPat, tabBeginRep), (tabEndPat, tabEndRep)]

def replChain (prs : List (Str × Str)) (t : Str) : Str :=
  prs.foldl (fun acc pr => replaceL pr.1 pr.2 acc) t

-- ------------------------------------------------------------
-- Decimal reformatting (the regex `(-?\d+\.\d+)(?=(?:[^0-9]|$))`
-- replaced by `f"{float(num_str):.3f}"`)
-- ------------------------------------------------------------

/-- Match `\d+\.\d+` (both runs maximal) at the head of `s`, returning the
integer digits, fraction digits and the remaining text.  The regex's
lookahead `(?=(?:[^0-9]|$))` is redundant because the fraction run is
maximal. -/
def tryTokU (s : Str) : Option (Str × Str × Str) :=
  let i := s.takeWhile Char.isDigit
  if i.isEmpty then none
  else
    match s.dropWhile Char.isDigit with
    | c :: u =>
      if c = '.' then
        let f := u.takeWhile Char.isDigit
        if f.isEmpty then none else some (i, f, u.dropWhile Char.isDigit)
      else none
    | [] => none

/-- Match `-?\d+\.\d+` at the head of `s`; the flag records a leading sign. -/
def tryTok (s : Str) : Option (Bool × Str × Str × Str) :=
  match s with
  | [] => none
  | c :: t =>
    if c = '-' then (tryTokU t).map (fun x => (true, x.1, x.2.1, x.2.2))
    else (tryTokU (c :: t)).map (fun x => (false, x.1, x.2.1, x.2.2))

def digitsVal (ds : Str) : ℕ := ds.foldl (fun a c => a * 10 + (c.toNat - 48)) 0

/-- Round `num / den` to the nearest integer, ties to even (`den > 0`).
Applied below to the token value scaled by 1000, this is rounding to three
decimal places.  Python formats the nearest binary64 value of the token;
the two agree except when the decimal value sits exactly between
representable targets, and both are stable on their own three-decimal
output, which is what the theorems use. -/
def rheNat (num den : ℕ) : ℕ :=
  let q := num / den
  let r := num % den
  if den < 2 * r then q + 1
  else if 2 * r < den then q
  else if q % 2 = 0 then q else q + 1

/-- Numerator of the token value scaled by 1000 over denominator
`10 ^ f.length`: the token is `digitsVal i + digitsVal f / 10 ^ f.length`. -/
def tokScaled (i f : Str) : ℕ :=
  digitsVal i * 10 ^ f.length * 1000 + digitsVal f * 1000

def pad3 (m : ℕ) : Str := [digitChar (m / 100), digitChar (m / 10 % 10), digitChar (m % 10)]

/-- Three-decimal rendering of a matched token, modelling
`f"{float(num_str):.3f}"` (sign preserved as Python preserves the float's
sign bit). -/
def fmt3 (sg : Bool) (i f : Str) : Str :=
  let n := rheNat (tokScaled i f) (10 ^ f.length)
  (if sg then ['-'] else []) ++ natDigits (n / 1000) ++ ['.'] ++ pad3 (n % 1000)

/-- Left-to-right, non-overlapping regex substitution pass, with fuel (any
fuel at least the text length is sufficient, see `padAux_fuel`). -/
def padAux : ℕ → Str → Str
  | 0, s => s
  | _ + 1, [] => []
  | n + 1, s =>
    match tryTok s with
    | some (sg, i, f, rest) => fmt3 sg i f ++ padAux n rest
    | none =>
      match s with
      | [] => []
      | c :: cs => c :: padAux n cs

def padNumbers (s : Str) : Str := padAux s.length s

/-- Model of `process_tex` (3_make_latex.py, lines 92-158) as a function on
the file's text: drop rows, join, apply the substitution chain, re-format
every decimal number to three decimal places. -/
def process_tex (mapping : List (Str × Str)) (text : Str) : Str :=
  padNumbers (replChain (texChain mapping) (joinNL (dropLinesRec (splitlinesL text))))

-- ============================================================
-- 1_process_data.py : panel preparation
-- ============================================================

/-- Fixed list of log-level variables (1_process_data.py, lines 46-62). -/
def log_variables : List Str :=
  [lstr "total_deposits", lstr "savings_deposits", lstr "time_deposits",
   lstr "total_liabilities", lstr "wholesale_funding",
   lstr "total_assets", lstr "cash", lstr "total_securities",
   lstr "total_loans", lstr "re_loans", lstr "ci_loans"]

/-- Mask used in the log-variable loop: `cr.loc[cr[v] <= 0, v] = np.nan`
followed by `np.log`.  A missing value stays missing; a non-positive value
becomes missing; a positive value is replaced by its natural logarithm
(represented by the function parameter `logf`, instantiated with
`Real.log` in the theorems). -/
def maskLog {α : Type} (logf : ℚ → α) (o : Option ℚ) : Option α :=
  o.bind (fun v => if v ≤ 0 then none else some (logf v))

/-- Pandas `Series.diff()` within one bank's (time-ordered) series: the first
entry is missing, each later entry is `x_t - x_{t-1}` with missing
propagation. -/
def diffAux {α : Type} [Sub α] (prev : Option α) : List (Option α) → List (Option α)
  | [] => []
  | x :: xs =>
    (match prev, x with
     | some b, some a => some (a - b)
     | _, _ => none) :: diffAux x xs

def diffSeries {α : Type} [Sub α] : List (Option α) → List (Option α)
  | [] => []
  | x :: xs => none :: diffAux x xs

/-- Model of the per-variable body of the log loop (1_process_data.py,
lines 163-171) applied to one bank's time-ordered series of raw values:
null non-positives, take logs, first-difference within the bank. -/
def logDiffSeries {α : Type} [Sub α] (logf : ℚ → α) (vs : List (Option ℚ)) :
    List (Option α) :=
  diffSeries (vs.map (maskLog logf))

/-- Boolean `growth >= 1` on the pandas float semantics of
`pct_change(fill_method=None)`: with previous value `p ≠ 0` the change is
`(c - p) / p`; with `p = 0` the float quotient is `±inf` (or `nan` when
`c = 0`), so the comparison with 1 holds exactly when `0 < c`. -/
def growthGE1 (p c : ℚ) : Bool :=
  if p = 0 then decide (0 < c) else decide (1 ≤ (c - p) / p)

def highGrowthAux (prev : Option ℚ) : List (Option ℚ) → List ℕ
  | [] => []
  | x :: xs =>
    (match prev, x with
     | some p, some c => if growthGE1 p c then 1 else 0
     | _, _ => 0) :: highGrowthAux x xs

/-- Model of `high_asset_growth` (1_process_data.py, lines 158-160) on one
bank's time-ordered series of `total_assets`:
`(growth_assets >= 1).fillna(False).astype(int)` where
`growth_assets = pct_change(fill_method=None)`.  A row with no prior value
(first row, or missing neighbour) gets flag 0, not missing. -/
def high_asset_growth : List (Option ℚ) → List ℕ
  | [] => []
  | x :: xs => 0 :: highGrowthAux x xs

/-- Pandas mean of a column with missing values skipped;
missing when no value is present. -/
def meanOpt (xs : List (Option ℚ)) : Option ℚ :=
  let v := xs.filterMap id
  if v.isEmpty then none else some (v.sum / (v.length : ℚ))

/-- Insertion into a sorted list (ascending), for the sorted values used by
the quantile. -/
def insSorted (x : ℚ) : List ℚ → List ℚ
  | [] => [x]
  | y :: ys => if x ≤ y then x :: y :: ys else y :: insSorted x ys

def sortQ (xs : List ℚ) : List ℚ := xs.foldr insSorted []

/-- Pandas `Series.quantile(p)` with the default linear interpolation,
missing values dropped; `none` on an empty series. -/
def quantileLin (p : ℚ) (xs : List ℚ) : Option ℚ :=
  let s := sortQ xs
  let n := s.length
  if n = 0 then none
  else
    let h : ℚ := p * ((n : ℚ) - 1)
    let lo : ℕ := Nat.floor h
    let frac : ℚ := h - (lo : ℚ)
    let xlo := s.getD lo 0
    let xhi := s.getD (min (lo + 1) (n - 1)) 0
    some (xlo + frac * (xhi - xlo))

/-- Records for the size-tier computation: one `(rssdid, assets)` pair per
bank-quarter row, assets possibly missing. -/
abbrev SizeRow := ℕ × Option ℚ

/-- Per-bank time-average asset level:
`avg_assets = cr.groupby("rssdid")["assets"].mean()`. -/
def avgAssetsOf (rows : List SizeRow) (b : ℕ) : Option ℚ :=
  meanOpt ((rows.filter (fun r => r.1 == b)).map Prod.snd)

/-- Banks appearing in the data, deduplicated (groupby keys). -/
def banksOf (rows : List SizeRow) : List ℕ := (rows.map Prod.fst).dedup

/-- Series of bank-level average assets entering the percentile cutoffs
(missing averages dropped, as `Series.quantile` does). -/
def avgAssetsSeries (rows : List SizeRow) : List ℚ :=
  (banksOf rows).filterMap (avgAssetsOf rows)

def q75 (rows : List SizeRow) : Option ℚ := quantileLin (3 / 4) (avgAssetsSeries rows)

def q90 (rows : List SizeRow) : Option ℚ := quantileLin (9 / 10) (avgAssetsSeries rows)

/-- Shared shape of the two size-tier indicators:
`(avg_assets >= cutoff).astype(int)`; a missing average (bank with no
observed asset value) compares as False, giving 0, never missing. -/
def sizeFlag (avg : Option ℚ) (cutoff : Option ℚ) : ℕ :=
  match avg, cutoff with
  | some a, some q => if q ≤ a then 1 else 0
  | _, _ => 0

/-- Model of `cr["top25_assets"]` (1_process_data.py, line 141) for the
record of bank `b`. -/
def top25_assets (rows : List SizeRow) (b : ℕ) : ℕ :=
  sizeFlag (avgAssetsOf rows b) (q75 rows)

/-- Model of `cr["top10_assets"]` (1_process_data.py, line 142). -/
def top10_assets (rows : List SizeRow) (b : ℕ) : ℕ :=
  sizeFlag (avgAssetsOf rows b) (q90 rows)

/-- Model of the post-2008 dummy `cr['post2008'] = (cr['year'] >= 2009)`
(1_process_data.py, line 174). -/
def post2008 (year : ℤ) : ℕ := if 2009 ≤ year then 1 else 0

-- ------------------------------------------------------------
-- Concentration-index merge (1_process_data.py, lines 94-102)
-- ------------------------------------------------------------

/-- Merge key `(cert, year, quarter)`. -/
abbrev MKey := ℤ × ℤ × ℤ

inductive MergeInd where
  | both
  | left_only
deriving DecidableEq, Repr

/-- Key list has a duplicate. -/
def hasDup (ks : List MKey) : Bool := decide (¬ ks.Nodup)

/-- Model of the concentration merge: pandas left join on
`(cert, year, quarter)` with `validate="1:1"` and `indicator="_merge"`.
Pandas raises `MergeError` exactly when the merge keys are not unique in
the left or in the right dataset; otherwise each left row is kept once,
decorated with the matched right value (or missing) and the provenance
marker. -/
def merge_concentration {α β : Type} (left : List (MKey × α)) (right : List (MKey × β)) :
    Except Str (List (MKey × α × Option β × MergeInd)) :=
  if hasDup (left.map Prod.fst) || hasDup (right.map Prod.fst) then
    .error (lstr "MergeError: Merge keys are not unique")
  else
    .ok (left.map (fun kv =>
      match right.find? (fun r => r.1 == kv.1) with
      | some r => (kv.1, kv.2, some r.2, MergeInd.both)
      | none => (kv.1, kv.2, none, MergeInd.left_only)))

-- ============================================================
-- Side conditions for the rewriting lemmas (all decidable)
-- ============================================================

def isSufB (p s : Str) : Bool := isPrefB p.reverse s.reverse

/-- Overlap-freeness of a pattern `p` against an inserted replacement text
`r`: `p` does not occur in `r`, no proper nonempty tail of `p` is
prefix-compatible with `r`, and no proper nonempty head of `p` is a suffix
of `r`.  Under these checks a substitution inserting `r` can neither keep
nor create an occurrence of `p`. -/
def overlapFreeB (p r : Str) : Bool :=
  !occursB p r &&
  (List.range p.length).all (fun j =>
    j == 0 || (!isPrefB (p.drop j) r && !isPrefB r (p.drop j) && !isSufB (p.take j) r))

/-- Characters that can appear in a reformatted decimal token. -/
def tokChar (c : Char) : Bool := c.isDigit || c == '.' || c == '-'

/-- Safety of a pattern `p` with respect to the decimal reformatting pass:
`p` neither starts nor ends with a token character and contains no dot, so
the pass can neither destroy nor create an occurrence of `p`. -/
def padSafeB (p : Str) : Bool :=
  match p with
  | [] => false
  | c :: _ => !tokChar c && !tokChar (p.getLastD 'x') && p.all (fun d => d != '.')

/-- Pairwise safety of the whole substitution chain: every pattern is
overlap-free against its own replacement and against every later
replacement, and is untouched by the decimal reformatting. -/
def chainSafeB : List (Str × Str) → Bool
  | [] => true
  | pr :: rest =>
    overlapFreeB pr.1 pr.2 && rest.all (fun pr2 => overlapFreeB pr.1 pr2.2) &&
    padSafeB pr.1 && chainSafeB rest

/-- Stem of the shielding placeholder (the placeholder without its two
trailing underscores); a line containing it can defeat the
shield-then-restore round trip of `extract_values_from_row`. -/
def PH_STEM : Str := lstr "__AMP__PLACEHOLDER"

/-- Stability condition under which the fragment cleanup is idempotent: the
cleaned text has no droppable line left and does not end in a line break. -/
def cleanStable (mapping : List (Str × Str)) (t : Str) : Bool :=
  (splitlinesL (process_tex mapping t)).all (fun l => !dropAnyCond l) &&
  ((process_tex mapping t).getLastD 'x' != '\n')

-- ============================================================
-- Concrete fragment fixtures used by the composite-build theorems
-- ============================================================

/-- Minimal well-formed fragment with one dependent variable: a given header
label, a given interaction coefficient, standard error 0.027, and 42
observations. -/
def mkFrag (hdr coef : Str) : Str :=
  lstr "\\toprule\n & " ++ hdr ++ lstr "\\\\\n & (1)\\\\\n\\midrule\n" ++
  INTERACTION_LABEL ++ lstr " & " ++ coef ++ lstr "\\\\\n & 0.027\\\\\nObservations & 42\\\\\n\\bottomrule"

/-- Exactly the three fragment files named in the claim (filters none /
growth / winsor), all reporting coefficient -1.555 and SE 0.027. -/
def filesThree : Files :=
  [(srcName (lstr "A") (lstr "full") (lstr "none"), mkFrag (lstr "x") (lstr "-1.555")),
   (srcName (lstr "A") (lstr "full") (lstr "growth"), mkFrag (lstr "x") (lstr "-1.555")),
   (srcName (lstr "A") (lstr "full") (lstr "winsor"), mkFrag (lstr "x") (lstr "-1.555"))]

/-- The same three fragments plus the fourth filter fragment ("both") that
the build also reads. -/
def filesFour : Files :=
  filesThree ++ [(srcName (lstr "A") (lstr "full") (lstr "both"), mkFrag (lstr "x") (lstr "-1.555"))]

/-- Fragment sets whose header-variable sequences disagree across source
files, for both the filter build and the FE build. -/
def filesMismatch : Files :=
  [(srcName (lstr "A") (lstr "full") (lstr "none"), mkFrag (lstr "x") (lstr "-1.555")),
   (srcName (lstr "A") (lstr "full") (lstr "growth"), mkFrag (lstr "y") (lstr "-1.555")),
   (srcName (lstr "A") (lstr "full") (lstr "winsor"), mkFrag (lstr "z") (lstr "-1.555")),
   (srcName (lstr "A") (lstr "full") (lstr "both"), mkFrag (lstr "w") (lstr "-1.555"))] ++
  (FE_SPECS.zip [lstr "p", lstr "q", lstr "r", lstr "s", lstr "t", lstr "u"]).map
    (fun sp => (srcName (lstr "A") (lstr "full") (lstr "both" ++ lstr "_" ++ sp.1.1),
                mkFrag sp.2 (lstr "-1.555")))

def parsedHeaderVars : Except PErr Parsed → List Str
  | .ok p => p.header_vars
  | .error _ => []

def isOkE {ε α : Type} : Except ε α → Bool
  | .ok _ => true
  | .error _ => false

instance {ε α : Type} [DecidableEq ε] [DecidableEq α] : DecidableEq (Except ε α) := fun a b =>
  match a, b with
  | .ok x, .ok y => if h : x = y then .isTrue (by rw [h]) else .isFalse (by simp [h])
  | .error x, .error y => if h : x = y then .isTrue (by rw [h]) else .isFalse (by simp [h])
  | .ok _, .error _ => .isFalse (by simp)
  | .error _, .ok _ => .isFalse (by simp)

def buildTxt : Except PErr (Str × Str) → Str
  | .ok x => x.2
  | .error _ => []

-- ============================================================
-- Theorems
-- ============================================================

-- ------------------------------------------------------------
-- Bridging lemmas between the boolean string tests and the
-- `List.IsPrefix` / `List.IsSuffix` / `List.IsInfix` relations
-- ------------------------------------------------------------

theorem isPrefB_iff : ∀ (p s : Str), isPrefB p s = true ↔ p <+: s := by
  intro p
  induction p with
  | nil => intro s; simp [isPrefB]
  | cons a as ih =>
    intro s
    cases s with
    | nil => simp [isPrefB]
    | cons b bs =>
      simp only [isPrefB, Bool.and_eq_true, beq_iff_eq, List.cons_prefix_cons]
      exact and_congr Iff.rfl (ih bs)

theorem isSufB_iff (p s : Str) : isSufB p s = true ↔ p <:+ s := by
  rw [isSufB, isPrefB_iff, List.reverse_prefix]

theorem occursB_iff : ∀ (p s : Str), occursB p s = true ↔ p <:+: s := by
  intro p s
  induction s with
  | nil =>
    simp only [occursB, List.isEmpty_iff, List.infix_nil]
  | cons c cs ih =>
    simp only [occursB, Bool.or_eq_true, isPrefB_iff, ih, List.infix_cons_iff]

theorem occursB_eq_false_iff (p s : Str) : occursB p s = false ↔ ¬ p <:+: s := by
  rw [← occursB_iff]
  cases occursB p s <;> simp

-- ------------------------------------------------------------
-- Unfolding equations for `replaceL`
-- ------------------------------------------------------------

theorem replaceAux_fuel (p r : Str) :
    ∀ (n m : ℕ) (s : Str), s.length ≤ n → s.length ≤ m →
      replaceAux p r n s = replaceAux p r m s := by
  intro n
  induction n with
  | zero =>
    intro m s hn _
    have : s = [] := List.length_eq_zero.mp (Nat.le_zero.mp hn)
    subst this
    cases m <;> rfl
  | succ n ih =>
    intro m s hn hm
    cases s with
    | nil => cases m <;> rfl
    | cons c cs =>
      cases m with
      | zero => simp at hm
      | succ m =>
        simp only [replaceAux]
        by_cases hpre : isPrefB p (c :: cs) = true
        · rw [if_pos hpre, if_pos hpre]
          have hd : (cs.drop (p.length - 1)).length ≤ n := by
            have := List.length_drop (p.length - 1) cs
            simp only [List.length_cons] at hn
            omega
          have hd2 : (cs.drop (p.length - 1)).length ≤ m := by
            have := List.length_drop (p.length - 1) cs
            simp only [List.length_cons] at hm
            omega
          rw [ih m _ hd hd2]
        · rw [if_neg hpre, if_neg hpre]
          have hc : cs.length ≤ n := by simp only [List.length_cons] at hn; omega
          have hc2 : cs.length ≤ m := by simp only [List.length_cons] at hm; omega
          rw [ih m cs hc hc2]

theorem replaceL_nil (p r : Str) : replaceL p r [] = [] := by
  unfold replaceL
  by_cases hp : p.isEmpty <;> simp [hp, replaceAux]

theorem replaceL_cons_pos (p r : Str) (c : Char) (cs : Str)
    (h : isPrefB p (c :: cs) = true) (hp : p ≠ []) :
    replaceL p r (c :: cs) = r ++ replaceL p r (cs.drop (p.length - 1)) := by
  unfold replaceL
  have hpe : p.isEmpty = false := by cases p with | nil => exact absurd rfl hp | cons a as => rfl
  rw [if_neg (by simp [hpe]), if_neg (by simp [hpe])]
  show replaceAux p r (c :: cs).length (c :: cs) = _
  rw [show (c :: cs).length = cs.length + 1 from rfl]
  simp only [replaceAux, if_pos h]
  congr 1
  exact replaceAux_fuel p r cs.length (cs.drop (p.length - 1)).length _
    (by have := List.length_drop (p.length - 1) cs; omega) (le_refl _)

theorem replaceL_cons_neg (p r : Str) (c : Char) (cs : Str)
    (h : isPrefB p (c :: cs) = false) :
    replaceL p r (c :: cs) = c :: replaceL p r cs := by
  have hp : p ≠ [] := by
    intro he
    subst he
    simp [isPrefB] at h
  unfold replaceL
  have hpe : p.isEmpty = false := by cases p with | nil => exact absurd rfl hp | cons a as => rfl
  rw [if_neg (by simp [hpe]), if_neg (by simp [hpe])]
  show replaceAux p r (c :: cs).length (c :: cs) = _
  rw [show (c :: cs).length = cs.length + 1 from rfl]
  simp only [replaceAux, h]
  simp

/-- A text without an occurrence of the pattern is left unchanged. -/
theorem replaceL_of_not_infix (p r : Str) :
    ∀ (s : Str), ¬ p <:+: s → replaceL p r s = s := by
  intro s
  induction s with
  | nil => intro _; exact replaceL_nil p r
  | cons c cs ih =>
    intro h
    have hpre : isPrefB p (c :: cs) = false := by
      cases hb : isPrefB p (c :: cs) with
      | false => rfl
      | true => exact absurd ((isPrefB_iff p _).mp hb).isInfix h
    rw [replaceL_cons_neg p r c cs hpre, ih (fun hcs => h (List.infix_cons_iff.mpr (Or.inr hcs)))]

-- ------------------------------------------------------------
-- Occurrence analysis of substitution outputs
-- ------------------------------------------------------------

/-- An infix of a concatenation lies in the left part, in the right part,
or spans the boundary. -/
theorem infix_append_split {p x y : Str} (h : p <:+: x ++ y) :
    p <:+: x ∨ p <:+: y ∨
      ∃ a b, p = a ++ b ∧ a ≠ [] ∧ b ≠ [] ∧ a <:+ x ∧ b <+: y := by
  obtain ⟨u, v, huv⟩ := h
  have huv' : x ++ y = u ++ (p ++ v) := by rw [← huv, List.append_assoc]
  rcases List.append_eq_append_iff.mp huv' with ⟨a', _, ha2⟩ | ⟨c', hc1, hc2⟩
  · right; left
    exact ⟨a', v, by rw [ha2, List.append_assoc]⟩
  · rcases List.append_eq_append_iff.mp hc2.symm with ⟨a2, hA1, hA2⟩ | ⟨c2, hB1, hB2⟩
    · by_cases hc'e : c' = []
      · right; left
        subst hc'e
        rw [List.nil_append] at hA1
        exact ⟨[], v, by rw [List.nil_append, hA1, hA2]⟩
      · by_cases ha2e : a2 = []
        · left
          subst ha2e
          rw [List.append_nil] at hA1
          exact ⟨u, [], by rw [List.append_nil, hA1, hc1]⟩
        · right; right
          exact ⟨c', a2, hA1, hc'e, ha2e, ⟨u, hc1.symm⟩, ⟨v, hA2.symm⟩⟩
    · left
      exact ⟨u, c2, by rw [hc1, hB1, List.append_assoc]⟩

/-- Unpacked form of `overlapFreeB`. -/
theorem overlapFreeB_spec {p r : Str} (h : overlapFreeB p r = true) :
    p ≠ [] ∧ ¬ p <:+: r ∧
      ∀ j, 1 ≤ j → j < p.length →
        ¬ (p.drop j <+: r) ∧ ¬ (r <+: p.drop j) ∧ ¬ (p.take j <:+ r) := by
  simp only [overlapFreeB, Bool.and_eq_true, List.all_eq_true, List.mem_range] at h
  obtain ⟨h0, hall⟩ := h
  refine ⟨?_, ?_, ?_⟩
  · intro he
    subst he
    rw [show occursB [] r = true from ?_] at h0
    · exact absurd h0 (by simp)
    · cases r with
      | nil => rfl
      | cons c cs => simp [occursB, isPrefB]
  · rw [Bool.not_eq_eq_eq_not, Bool.not_true] at h0
    exact (occursB_eq_false_iff p r).mp h0
  · intro j hj1 hj2
    have := hall j hj2
    rw [Bool.or_eq_true] at this
    rcases this with hz | hrest
    · rw [beq_iff_eq] at hz
      omega
    · simp only [Bool.and_eq_true, Bool.not_eq_eq_eq_not, Bool.not_true] at hrest
      refine ⟨?_, ?_, ?_⟩
      · intro hp; rw [(isPrefB_iff _ _).mpr hp] at hrest; simp at hrest
      · intro hp; rw [(isPrefB_iff _ _).mpr hp] at hrest; simp at hrest
      · intro hp; rw [(isSufB_iff _ _).mpr hp] at hrest; simp at hrest

/-- Partial occurrences of a pattern cannot continue through a substitution
output: if the tail `p.drop j` of the pattern is not a prefix of the text,
it is not a prefix of the substituted text either (given the
prefix-compatibility checks between the pattern's tails and `r`). -/
theorem replaceL_drop_prefix (p q r : Str) (hq : q ≠ [])
    (hC1 : ∀ j, 1 ≤ j → j < p.length → ¬ (p.drop j <+: r))
    (hC2 : ∀ j, 1 ≤ j → j < p.length → ¬ (r <+: p.drop j)) :
    ∀ (t : Str) (j : ℕ), 1 ≤ j → j < p.length → ¬ (p.drop j <+: t) →
      ¬ (p.drop j <+: replaceL q r t) := by
  intro t
  induction t with
  | nil =>
    intro j hj1 hj2 _ hcontra
    rw [replaceL_nil] at hcontra
    have h0 : p.drop j = [] := List.prefix_nil.mp hcontra
    have hlen : (List.drop j p).length = p.length - j := List.length_drop j p
    rw [h0] at hlen
    simp only [List.length_nil] at hlen
    omega
  | cons c cs ih =>
    intro j hj1 hj2 hnt hcontra
    by_cases hpre : isPrefB q (c :: cs) = true
    · rw [replaceL_cons_pos q r c cs hpre hq] at hcontra
      by_cases hlen : (p.drop j).length ≤ r.length
      · exact hC1 j hj1 hj2
          (List.prefix_of_prefix_length_le hcontra (List.prefix_append r _) hlen)
      · exact hC2 j hj1 hj2
          (List.prefix_of_prefix_length_le (List.prefix_append r _) hcontra (by omega))
    · rw [replaceL_cons_neg q r c cs (by simpa using hpre)] at hcontra
      have hdj : p.drop j = p[j] :: p.drop (j + 1) := List.drop_eq_getElem_cons hj2
      rw [hdj, List.cons_prefix_cons] at hcontra
      obtain ⟨hcj, htail⟩ := hcontra
      by_cases hend : j + 1 = p.length
      · apply hnt
        rw [hdj, hcj]
        have : p.drop (j + 1) = [] := by rw [hend]; exact List.drop_length p
        rw [this]
        exact List.cons_prefix_cons.mpr ⟨rfl, List.nil_prefix⟩
      · exact ih (j + 1) (by omega) (by omega)
          (fun hpc => hnt (by rw [hdj, hcj]; exact List.cons_prefix_cons.mpr ⟨rfl, hpc⟩))
          htail

/-- A pattern absent from the text stays absent through an unrelated
substitution whose replacement is overlap-free for it. -/
theorem replaceL_keeps_absent (p q r : Str) (hq : q ≠ [])
    (hof : overlapFreeB p r = true) :
    ∀ t, ¬ p <:+: t → ¬ p <:+: replaceL q r t := by
  obtain ⟨hpne, hC0, hC⟩ := overlapFreeB_spec hof
  have main : ∀ (n : ℕ) (t : Str), t.length ≤ n → ¬ p <:+: t → ¬ p <:+: replaceL q r t := by
    intro n
    induction n with
    | zero =>
      intro t ht hnt
      have : t = [] := List.length_eq_zero.mp (Nat.le_zero.mp ht)
      subst this
      rw [replaceL_nil]
      exact hnt
    | succ n ih =>
      intro t ht hnt hcontra
      cases t with
      | nil =>
        rw [replaceL_nil] at hcontra
        exact hnt hcontra
      | cons c cs =>
        by_cases hpre : isPrefB q (c :: cs) = true
        · rw [replaceL_cons_pos q r c cs hpre hq] at hcontra
          rcases infix_append_split hcontra with hr | hX | ⟨a, b, hab, hane, hbne, hsa, hpb⟩
          · exact hC0 hr
          · have hsub : ¬ p <:+: cs.drop (q.length - 1) :=
              fun hs => hnt (hs.trans ((List.drop_suffix _ cs).isInfix.trans
                (List.infix_cons_iff.mpr (Or.inr (List.infix_refl cs)))))
            have hlen : (cs.drop (q.length - 1)).length ≤ n := by
              have := List.length_drop (q.length - 1) cs
              simp only [List.length_cons] at ht
              omega
            exact ih _ hlen hsub hX
          · have hai : a = p.take a.length := by rw [hab, List.take_left]
            have halen : a.length < p.length := by
              rw [hab, List.length_append]
              cases b with
              | nil => exact absurd rfl hbne
              | cons b0 bs => simp
            have ha1 : 1 ≤ a.length := by
              cases a with
              | nil => exact absurd rfl hane
              | cons a0 as => simp
            exact (hC a.length ha1 halen).2.2 (hai ▸ hsa)
        · rw [replaceL_cons_neg q r c cs (by simpa using hpre)] at hcontra
          rcases List.infix_cons_iff.mp hcontra with hp | hX
          · rcases List.prefix_cons_iff.mp hp with he | ⟨t', hpt, htp⟩
            · exact hpne he
            · have hdrop1 : t' = p.drop 1 := by rw [hpt]; rfl
              cases t' with
              | nil =>
                apply hnt
                rw [hpt]
                exact (List.cons_prefix_cons.mpr ⟨rfl, List.nil_prefix⟩).isInfix
              | cons d ds =>
                have hplen : 1 < p.length := by rw [hpt]; simp
                refine replaceL_drop_prefix p q r hq
                  (fun j hj1 hj2 => (hC j hj1 hj2).1)
                  (fun j hj1 hj2 => (hC j hj1 hj2).2.1)
                  cs 1 (le_refl 1) hplen ?_ (hdrop1 ▸ htp)
                intro hpc
                apply hnt
                rw [hpt]
                apply List.IsPrefix.isInfix
                apply List.cons_prefix_cons.mpr
                refine ⟨rfl, ?_⟩
                rw [hdrop1]
                exact hpc
          · exact ih cs (by simp only [List.length_cons] at ht; omega)
              (fun hs => hnt (List.infix_cons_iff.mpr (Or.inr hs))) hX
  intro t
  exact main t.length t (le_refl _)

/-- After substituting a pattern, the pattern itself is gone (given its
overlap-freeness against the replacement). -/
theorem replaceL_self_absent (q r : Str) (hof : overlapFreeB q r = true) :
    ∀ t, ¬ q <:+: replaceL q r t := by
  obtain ⟨hqne, hC0, hC⟩ := overlapFreeB_spec hof
  have main : ∀ (n : ℕ) (t : Str), t.length ≤ n → ¬ q <:+: replaceL q r t := by
    intro n
    induction n with
    | zero =>
      intro t ht
      have : t = [] := List.length_eq_zero.mp (Nat.le_zero.mp ht)
      subst this
      rw [replaceL_nil]
      simp only [List.infix_nil]
      exact hqne
    | succ n ih =>
      intro t ht hcontra
      cases t with
      | nil =>
        rw [replaceL_nil] at hcontra
        rw [List.infix_nil] at hcontra
        exact hqne hcontra
      | cons c cs =>
        by_cases hpre : isPrefB q (c :: cs) = true
        · rw [replaceL_cons_pos q r c cs hpre hqne] at hcontra
          rcases infix_append_split hcontra with hr | hX | ⟨a, b, hab, hane, hbne, hsa, hpb⟩
          · exact hC0 hr
          · have hlen : (cs.drop (q.length - 1)).length ≤ n := by
              have := List.length_drop (q.length - 1) cs
              simp only [List.length_cons] at ht
              omega
            exact ih _ hlen hX
          · have hai : a = q.take a.length := by rw [hab, List.take_left]
            have halen : a.length < q.length := by
              rw [hab, List.length_append]
              cases b with
              | nil => exact absurd rfl hbne
              | cons b0 bs => simp
            have ha1 : 1 ≤ a.length := by
              cases a with
              | nil => exact absurd rfl hane
              | cons a0 as => simp
            exact (hC a.length ha1 halen).2.2 (hai ▸ hsa)
        · rw [replaceL_cons_neg q r c cs (by simpa using hpre)] at hcontra
          rcases List.infix_cons_iff.mp hcontra with hp | hX
          · rcases List.prefix_cons_iff.mp hp with he | ⟨t', hpt, htp⟩
            · exact hqne he
            · have hdrop1 : t' = q.drop 1 := by rw [hpt]; rfl
              cases t' with
              | nil =>
                rw [hpt] at hpre
                simp [isPrefB] at hpre
              | cons d ds =>
                have hqlen : 1 < q.length := by rw [hpt]; simp
                refine replaceL_drop_prefix q q r hqne
                  (fun j hj1 hj2 => (hC j hj1 hj2).1)
                  (fun j hj1 hj2 => (hC j hj1 hj2).2.1)
                  cs 1 (le_refl 1) hqlen ?_ (hdrop1 ▸ htp)
                intro hpc
                apply hpre
                rw [hpt]
                apply (isPrefB_iff _ _).mpr
                apply List.cons_prefix_cons.mpr
                refine ⟨rfl, ?_⟩
                rw [hdrop1]
                exact hpc
          · exact ih cs (by simp only [List.length_cons] at ht; omega) hX
  intro t
  exact main t.length t (le_refl _)

-- ------------------------------------------------------------
-- Structure of the decimal-token scanner
-- ------------------------------------------------------------

theorem drop_takeWhile_length (p : Char → Bool) :
    ∀ (l : Str), l.drop (l.takeWhile p).length = l.dropWhile p := by
  intro l
  induction l with
  | nil => rfl
  | cons c cs ih =>
    rw [List.takeWhile_cons, List.dropWhile_cons]
    by_cases h : p c = true
    · rw [if_pos h, if_pos h]
      simpa using ih
    · rw [if_neg h, if_neg h]
      simp

theorem head?_dropWhile (p : Char → Bool) (l : Str) (c : Char)
    (h : (l.dropWhile p).head? = some c) : p c = false := by
  have := List.head?_dropWhile_not p l
  rw [h] at this
  exact this

theorem tryTokU_some_spec {s i f rest : Str} (h : tryTokU s = some (i, f, rest)) :
    i = s.takeWhile Char.isDigit ∧ i ≠ [] ∧
      ∃ u, s.dropWhile Char.isDigit = '.' :: u ∧
        f = u.takeWhile Char.isDigit ∧ f ≠ [] ∧ rest = u.dropWhile Char.isDigit := by
  unfold tryTokU at h
  by_cases hi : (s.takeWhile Char.isDigit).isEmpty
  · rw [if_pos hi] at h; simp at h
  · rw [if_neg hi] at h
    cases hdw : s.dropWhile Char.isDigit with
    | nil => rw [hdw] at h; simp at h
    | cons d u =>
      rw [hdw] at h
      simp only at h
      by_cases hd : d = '.'
      · rw [if_pos hd] at h
        by_cases hf : (u.takeWhile Char.isDigit).isEmpty
        · rw [if_pos hf] at h; simp at h
        · rw [if_neg hf] at h
          simp only [Option.some_inj, Prod.mk.injEq] at h
          obtain ⟨hi2, hf2, hr2⟩ := h
          refine ⟨hi2.symm, ?_, u, by rw [hd], hf2.symm, ?_, hr2.symm⟩
          · rw [hi2.symm]
            intro he
            rw [he] at hi
            exact hi rfl
          · rw [hf2.symm]
            intro he
            rw [he] at hf
            exact hf rfl
      · rw [if_neg hd] at h; simp at h

theorem tryTokU_intro {s : Str} {u : Str}
    (hi : s.takeWhile Char.isDigit ≠ [])
    (hdw : s.dropWhile Char.isDigit = '.' :: u)
    (hf : u.takeWhile Char.isDigit ≠ []) :
    tryTokU s = some (s.takeWhile Char.isDigit, u.takeWhile Char.isDigit,
      u.dropWhile Char.isDigit) := by
  have h1 : (s.takeWhile Char.isDigit).isEmpty = false := by
    cases hE : (s.takeWhile Char.isDigit).isEmpty
    · rfl
    · exact absurd (List.isEmpty_iff.mp hE) hi
  have h2 : (u.takeWhile Char.isDigit).isEmpty = false := by
    cases hE : (u.takeWhile Char.isDigit).isEmpty
    · rfl
    · exact absurd (List.isEmpty_iff.mp hE) hf
  unfold tryTokU
  simp [h1, h2, hdw]

theorem tryTokU_none_of_head {s : Str}
    (h : ∀ c, s.head? = some c → c.isDigit = false) : tryTokU s = none := by
  unfold tryTokU
  cases s with
  | nil => rfl
  | cons c cs =>
    have hc : c.isDigit = false := h c rfl
    simp [List.takeWhile_cons, hc]

theorem tryTok_some_spec {s : Str} {sg : Bool} {i f rest : Str}
    (h : tryTok s = some (sg, i, f, rest)) :
    (sg = true ∧ ∃ t, s = '-' :: t ∧ tryTokU t = some (i, f, rest)) ∨
    (sg = false ∧ tryTokU s = some (i, f, rest)) := by
  cases s with
  | nil => simp [tryTok] at h
  | cons c t =>
    have hdef : tryTok (c :: t) =
        if c = '-' then (tryTokU t).map (fun x => (true, x.1, x.2.1, x.2.2))
        else (tryTokU (c :: t)).map (fun x => (false, x.1, x.2.1, x.2.2)) := rfl
    rw [hdef] at h
    by_cases hc : c = '-'
    · rw [if_pos hc] at h
      cases htu : tryTokU t with
      | none => rw [htu] at h; exact absurd h (by simp)
      | some x =>
        obtain ⟨ia, fa, ra⟩ := x
        rw [htu] at h
        simp only [Option.map_some', Option.some_inj, Prod.mk.injEq] at h
        obtain ⟨rfl, rfl, rfl, rfl⟩ := h
        exact Or.inl ⟨rfl, t, by rw [hc], htu⟩
    · rw [if_neg hc] at h
      cases htu : tryTokU (c :: t) with
      | none => rw [htu] at h; exact absurd h (by simp)
      | some x =>
        obtain ⟨ia, fa, ra⟩ := x
        rw [htu] at h
        simp only [Option.map_some', Option.some_inj, Prod.mk.injEq] at h
        obtain ⟨rfl, rfl, rfl, rfl⟩ := h
        exact Or.inr ⟨rfl, rfl⟩

/-- Full decomposition of a successful token match. -/
theorem tryTok_decomp {s : Str} {sg : Bool} {i f rest : Str}
    (h : tryTok s = some (sg, i, f, rest)) :
    s = (if sg then ['-'] else []) ++ i ++ '.' :: (f ++ rest) ∧
      i ≠ [] ∧ f ≠ [] ∧
      (∀ c ∈ i, c.isDigit = true) ∧ (∀ c ∈ f, c.isDigit = true) ∧
      (∀ c, rest.head? = some c → c.isDigit = false) := by
  have base : ∀ (t : Str), tryTokU t = some (i, f, rest) →
      t = i ++ '.' :: (f ++ rest) ∧ i ≠ [] ∧ f ≠ [] ∧
      (∀ c ∈ i, c.isDigit = true) ∧ (∀ c ∈ f, c.isDigit = true) ∧
      (∀ c, rest.head? = some c → c.isDigit = false) := by
    intro t ht
    obtain ⟨hi, hine, u, hdw, hf, hfne, hrest⟩ := tryTokU_some_spec ht
    have ht1 : t = i ++ '.' :: u := by
      rw [hi, ← hdw]
      exact (List.takeWhile_append_dropWhile Char.isDigit t).symm
    have hu : u = f ++ rest := by
      rw [hf, hrest]
      exact (List.takeWhile_append_dropWhile Char.isDigit u).symm
    refine ⟨by rw [ht1, hu], hine, hfne, ?_, ?_, ?_⟩
    · intro c hc; rw [hi] at hc; exact List.mem_takeWhile_imp hc
    · intro c hc; rw [hf] at hc; exact List.mem_takeWhile_imp hc
    · intro c hc
      rw [hrest] at hc
      exact head?_dropWhile Char.isDigit u c hc
  rcases tryTok_some_spec h with ⟨hsg, t, hst, htu⟩ | ⟨hsg, htu⟩
  · obtain ⟨ht1, h2, h3, h4, h5, h6⟩ := base t htu
    subst hsg
    exact ⟨by simp [hst, ht1], h2, h3, h4, h5, h6⟩
  · obtain ⟨ht1, h2, h3, h4, h5, h6⟩ := base s htu
    subst hsg
    exact ⟨by simp [← ht1], h2, h3, h4, h5, h6⟩

theorem tryTok_rest_length {s : Str} {sg : Bool} {i f rest : Str}
    (h : tryTok s = some (sg, i, f, rest)) : rest.length < s.length := by
  obtain ⟨hs, hine, hfne, -, -, -⟩ := tryTok_decomp h
  rw [hs]
  simp only [List.length_append, List.length_cons]
  cases i with
  | nil => exact absurd rfl hine
  | cons a as => omega

theorem tryTok_rest_suffix {s : Str} {sg : Bool} {i f rest : Str}
    (h : tryTok s = some (sg, i, f, rest)) : rest <:+ s := by
  obtain ⟨hs, -, -, -, -, -⟩ := tryTok_decomp h
  refine ⟨(if sg then ['-'] else []) ++ i ++ '.' :: f, ?_⟩
  rw [hs]
  simp [List.append_assoc]

theorem padAux_fuel : ∀ (n m : ℕ) (s : Str), s.length ≤ n → s.length ≤ m →
    padAux n s = padAux m s := by
  intro n
  induction n with
  | zero =>
    intro m s hn _
    have : s = [] := List.length_eq_zero.mp (Nat.le_zero.mp hn)
    subst this
    cases m <;> rfl
  | succ n ih =>
    intro m s hn hm
    cases s with
    | nil => cases m <;> rfl
    | cons c cs =>
      cases m with
      | zero => simp at hm
      | succ m =>
        show (match tryTok (c :: cs) with
          | some (sg, i, f, rest) => fmt3 sg i f ++ padAux n rest
          | none => c :: padAux n cs) =
          (match tryTok (c :: cs) with
          | some (sg, i, f, rest) => fmt3 sg i f ++ padAux m rest
          | none => c :: padAux m cs)
        cases htk : tryTok (c :: cs) with
        | some x =>
          obtain ⟨sg, i, f, rest⟩ := x
          simp only
          congr 1
          have hlt := tryTok_rest_length htk
          simp only [List.length_cons] at hlt hn hm
          exact ih m rest (by omega) (by omega)
        | none =>
          simp only
          congr 1
          simp only [List.length_cons] at hn hm
          exact ih m cs (by omega) (by omega)

theorem padNumbers_some {s : Str} {sg : Bool} {i f rest : Str}
    (h : tryTok s = some (sg, i, f, rest)) :
    padNumbers s = fmt3 sg i f ++ padNumbers rest := by
  cases s with
  | nil => simp [tryTok] at h
  | cons c cs =>
    show padAux (c :: cs).length (c :: cs) = _
    rw [show (c :: cs).length = cs.length + 1 from rfl]
    show (match tryTok (c :: cs) with
      | some (sg, i, f, rest) => fmt3 sg i f ++ padAux cs.length rest
      | none => c :: padAux cs.length cs) = _
    rw [h]
    simp only
    congr 1
    have hlt := tryTok_rest_length h
    simp only [List.length_cons] at hlt
    exact padAux_fuel cs.length rest.length rest (by omega) (le_refl _)

theorem padNumbers_none {c : Char} {cs : Str} (h : tryTok (c :: cs) = none) :
    padNumbers (c :: cs) = c :: padNumbers cs := by
  show padAux (c :: cs).length (c :: cs) = _
  rw [show (c :: cs).length = cs.length + 1 from rfl]
  show (match tryTok (c :: cs) with
    | some (sg, i, f, rest) => fmt3 sg i f ++ padAux cs.length rest
    | none => c :: padAux cs.length cs) = _
  rw [h]
  rfl

-- ------------------------------------------------------------
-- Character content of reformatted tokens
-- ------------------------------------------------------------

theorem digitChar_isDigit {k : ℕ} (hk : k < 10) : (digitChar k).isDigit = true := by
  interval_cases k <;> decide

theorem natDigitsAux_all_digits :
    ∀ (fuel n : ℕ), ∀ c ∈ natDigitsAux fuel n, c.isDigit = true := by
  intro fuel
  induction fuel with
  | zero => intro n c hc; simp [natDigitsAux] at hc
  | succ fuel ih =>
    intro n c hc
    unfold natDigitsAux at hc
    by_cases hn : n < 10
    · rw [if_pos hn] at hc
      simp only [List.mem_singleton] at hc
      subst hc
      exact digitChar_isDigit hn
    · rw [if_neg hn] at hc
      rcases List.mem_append.mp hc with hc | hc
      · exact ih (n / 10) c hc
      · simp only [List.mem_singleton] at hc
        subst hc
        exact digitChar_isDigit (Nat.mod_lt n (by omega))

theorem natDigits_all_digits (n : ℕ) : ∀ c ∈ natDigits n, c.isDigit = true :=
  natDigitsAux_all_digits (n + 1) n

theorem natDigits_ne_nil (n : ℕ) : natDigits n ≠ [] := by
  unfold natDigits natDigitsAux
  by_cases hn : n < 10
  · simp [hn]
  · simp [hn]

theorem pad3_all_digits {m : ℕ} (hm : m < 1000) : ∀ c ∈ pad3 m, c.isDigit = true := by
  intro c hc
  unfold pad3 at hc
  simp only [List.mem_cons, List.not_mem_nil, or_false] at hc
  rcases hc with rfl | rfl | rfl
  · exact digitChar_isDigit (by omega)
  · exact digitChar_isDigit (by omega)
  · exact digitChar_isDigit (Nat.mod_lt m (by omega))

theorem tokChar_of_digit {c : Char} (h : c.isDigit = true) : tokChar c = true := by
  simp [tokChar, h]

theorem fmt3_all_tok (sg : Bool) (i f : Str) : ∀ c ∈ fmt3 sg i f, tokChar c = true := by
  intro c hc
  unfold fmt3 at hc
  simp only [List.mem_append] at hc
  rcases hc with ((hc | hc) | hc) | hc
  · cases sg with
    | true =>
      simp only [if_true, List.mem_singleton] at hc
      subst hc
      decide
    | false => simp at hc
  · exact tokChar_of_digit (natDigits_all_digits _ c hc)
  · simp only [List.mem_singleton] at hc
    subst hc
    decide
  · exact tokChar_of_digit (pad3_all_digits (Nat.mod_lt _ (by omega)) c hc)

theorem fmt3_mem_dot (sg : Bool) (i f : Str) : '.' ∈ fmt3 sg i f := by
  unfold fmt3
  simp

theorem padSafeB_spec {p : Str} (h : padSafeB p = true) :
    p ≠ [] ∧ (∀ c, p.head? = some c → tokChar c = false) ∧
      (∀ c, p.getLast? = some c → tokChar c = false) ∧ ('.' ∉ p) := by
  cases p with
  | nil => simp [padSafeB] at h
  | cons c0 cs =>
    simp only [padSafeB, Bool.and_eq_true, Bool.not_eq_eq_eq_not, Bool.not_true,
      List.all_eq_true] at h
    obtain ⟨⟨h1, h2⟩, h3⟩ := h
    refine ⟨by simp, ?_, ?_, ?_⟩
    · intro c hc
      simp only [List.head?_cons, Option.some_inj] at hc
      subst hc
      exact h1
    · intro c hc
      have : (c0 :: cs).getLastD 'x' = c := by
        rw [List.getLastD_eq_getLast?, hc]
        rfl
      rw [← this]
      exact h2
    · intro hdot
      have := h3 '.' hdot
      simp at this

theorem getLast?_drop (j : ℕ) :
    ∀ (p : Str), j < p.length → (p.drop j).getLast? = p.getLast? := by
  induction j with
  | zero => intro p _; rfl
  | succ j ih =>
    intro p hp
    cases p with
    | nil => simp at hp
    | cons c cs =>
      show (cs.drop j).getLast? = (c :: cs).getLast?
      simp only [List.length_cons] at hp
      rw [ih cs (by omega)]
      cases cs with
      | nil => simp at hp
      | cons d ds => simp [List.getLast?_cons_cons]

-- ------------------------------------------------------------
-- The decimal reformatting pass cannot create occurrences of a
-- pad-safe pattern
-- ------------------------------------------------------------

theorem pad_drop_prefix (p : Str) (hsafe : padSafeB p = true) :
    ∀ (t : Str) (j : ℕ), 1 ≤ j → j < p.length → ¬ (p.drop j <+: t) →
      ¬ (p.drop j <+: padNumbers t) := by
  obtain ⟨hpne, hhead, hlast, hdot⟩ := padSafeB_spec hsafe
  have main : ∀ (n : ℕ) (t : Str), t.length ≤ n → ∀ j, 1 ≤ j → j < p.length →
      ¬ (p.drop j <+: t) → ¬ (p.drop j <+: padNumbers t) := by
    intro n
    induction n with
    | zero =>
      intro t ht j hj1 hj2 _ hcontra
      have : t = [] := List.length_eq_zero.mp (Nat.le_zero.mp ht)
      subst this
      have h0 : p.drop j = [] := List.prefix_nil.mp hcontra
      have hlen : (List.drop j p).length = p.length - j := List.length_drop j p
      rw [h0] at hlen
      simp only [List.length_nil] at hlen
      omega
    | succ n ih =>
      intro t ht j hj1 hj2 hnt hcontra
      cases t with
      | nil =>
        have h0 : p.drop j = [] := List.prefix_nil.mp hcontra
        have hlen : (List.drop j p).length = p.length - j := List.length_drop j p
        rw [h0] at hlen
        simp only [List.length_nil] at hlen
        omega
      | cons c cs =>
        cases htk : tryTok (c :: cs) with
        | some x =>
          obtain ⟨sg, i, f, rest⟩ := x
          rw [padNumbers_some htk] at hcontra
          by_cases hlen : (p.drop j).length ≤ (fmt3 sg i f).length
          · have hpref : p.drop j <+: fmt3 sg i f :=
              List.prefix_of_prefix_length_le hcontra (List.prefix_append _ _) hlen
            have hne : p.drop j ≠ [] := by
              intro h0
              have hl := List.length_drop j p
              rw [h0] at hl
              simp only [List.length_nil] at hl
              omega
            have hlastmem : ∀ c', (p.drop j).getLast? = some c' → c' ∈ fmt3 sg i f := by
              intro c' hc'
              exact hpref.subset (List.mem_of_mem_getLast? hc')
            obtain ⟨c', hc'⟩ : ∃ c', (p.drop j).getLast? = some c' := by
              cases hgl : (p.drop j).getLast? with
              | none => exact absurd (List.getLast?_eq_none_iff.mp hgl) hne
              | some c' => exact ⟨c', rfl⟩
            have htok := fmt3_all_tok sg i f c' (hlastmem c' hc')
            rw [getLast?_drop j p hj2] at hc'
            rw [hlast c' hc'] at htok
            cases htok
          · have hfmt : fmt3 sg i f <+: p.drop j :=
              List.prefix_of_prefix_length_le (List.prefix_append _ _) hcontra (by omega)
            exact hdot ((List.mem_of_mem_drop (hfmt.subset (fmt3_mem_dot sg i f))))
        | none =>
          rw [padNumbers_none htk] at hcontra
          have hdj : p.drop j = p[j] :: p.drop (j + 1) := List.drop_eq_getElem_cons hj2
          rw [hdj, List.cons_prefix_cons] at hcontra
          obtain ⟨hcj, htail⟩ := hcontra
          by_cases hend : j + 1 = p.length
          · apply hnt
            rw [hdj, hcj]
            have : p.drop (j + 1) = [] := by rw [hend]; exact List.drop_length p
            rw [this]
            exact List.cons_prefix_cons.mpr ⟨rfl, List.nil_prefix⟩
          · exact ih cs (by simp only [List.length_cons] at ht; omega) (j + 1)
              (by omega) (by omega)
              (fun hpc => hnt (by rw [hdj, hcj]; exact List.cons_prefix_cons.mpr ⟨rfl, hpc⟩))
              htail
  intro t
  exact main t.length t (le_refl _)

theorem pad_keeps_absent (p : Str) (hsafe : padSafeB p = true) :
    ∀ t, ¬ p <:+: t → ¬ p <:+: padNumbers t := by
  obtain ⟨hpne, hhead, hlast, hdot⟩ := padSafeB_spec hsafe
  have main : ∀ (n : ℕ) (t : Str), t.length ≤ n → ¬ p <:+: t → ¬ p <:+: padNumbers t := by
    intro n
    induction n with
    | zero =>
      intro t ht hnt
      have : t = [] := List.length_eq_zero.mp (Nat.le_zero.mp ht)
      subst this
      exact hnt
    | succ n ih =>
      intro t ht hnt hcontra
      cases t with
      | nil => exact hnt hcontra
      | cons c cs =>
        cases htk : tryTok (c :: cs) with
        | some x =>
          obtain ⟨sg, i, f, rest⟩ := x
          rw [padNumbers_some htk] at hcontra
          rcases infix_append_split hcontra with hF | hX | ⟨a, b, hab, hane, hbne, hsa, hpb⟩
          · cases hph : p.head? with
            | none => exact hpne (List.head?_eq_none_iff.mp hph)
            | some c0 =>
              have hc0 : c0 ∈ fmt3 sg i f := hF.sublist.subset (List.mem_of_mem_head? hph)
              have := fmt3_all_tok sg i f c0 hc0
              rw [hhead c0 hph] at this
              cases this
          · have hsub : ¬ p <:+: rest :=
              fun hs => hnt (hs.trans (tryTok_rest_suffix htk).isInfix)
            have hlen : rest.length ≤ n := by
              have := tryTok_rest_length htk
              simp only [List.length_cons] at ht this
              omega
            exact ih rest hlen hsub hX
          · have hheadmem : ∀ c0, a.head? = some c0 → c0 ∈ fmt3 sg i f := by
              intro c0 hc0
              exact hsa.subset (List.mem_of_mem_head? hc0)
            cases ha : a.head? with
            | none => exact hane (List.head?_eq_none_iff.mp ha)
            | some c0 =>
              have htok := fmt3_all_tok sg i f c0 (hheadmem c0 ha)
              have hphead : p.head? = some c0 := by
                rw [hab]
                cases a with
                | nil => simp at ha
                | cons a0 as => simpa using ha
              rw [hhead c0 hphead] at htok
              cases htok
        | none =>
          rw [padNumbers_none htk] at hcontra
          rcases List.infix_cons_iff.mp hcontra with hp | hX
          · rcases List.prefix_cons_iff.mp hp with he | ⟨t', hpt, htp⟩
            · exact hpne he
            · have hdrop1 : t' = p.drop 1 := by rw [hpt]; rfl
              cases t' with
              | nil =>
                apply hnt
                rw [hpt]
                exact (List.cons_prefix_cons.mpr ⟨rfl, List.nil_prefix⟩).isInfix
              | cons d ds =>
                have hplen : 1 < p.length := by rw [hpt]; simp
                refine pad_drop_prefix p hsafe cs 1 (le_refl 1) hplen ?_ (hdrop1 ▸ htp)
                intro hpc
                apply hnt
                rw [hpt]
                apply List.IsPrefix.isInfix
                apply List.cons_prefix_cons.mpr
                refine ⟨rfl, ?_⟩
                rw [hdrop1]
                exact hpc
          · exact ih cs (by simp only [List.length_cons] at ht; omega)
              (fun hs => hnt (List.infix_cons_iff.mpr (Or.inr hs))) hX
  intro t
  exact main t.length t (le_refl _)

-- ------------------------------------------------------------
-- Round-trip arithmetic of the three-decimal format
-- ------------------------------------------------------------

theorem digitChar_toNat {k : ℕ} (hk : k < 10) : (digitChar k).toNat = 48 + k := by
  interval_cases k <;> decide

theorem digitsVal_append_single (a : Str) (c : Char) :
    digitsVal (a ++ [c]) = 10 * digitsVal a + (c.toNat - 48) := by
  unfold digitsVal
  rw [List.foldl_append]
  simp [Nat.mul_comm]

theorem natDigitsAux_val : ∀ (fuel n : ℕ), n < fuel →
    digitsVal (natDigitsAux fuel n) = n := by
  intro fuel
  induction fuel with
  | zero => intro n hn; omega
  | succ fuel ih =>
    intro n hn
    unfold natDigitsAux
    by_cases h10 : n < 10
    · rw [if_pos h10]
      show digitsVal ([] ++ [digitChar n]) = n
      rw [digitsVal_append_single]
      unfold digitsVal
      simp [digitChar_toNat h10]
    · rw [if_neg h10]
      rw [digitsVal_append_single]
      have hdiv : n / 10 < fuel := by omega
      rw [ih (n / 10) hdiv]
      rw [digitChar_toNat (Nat.mod_lt n (by omega))]
      omega

theorem natDigits_val (n : ℕ) : digitsVal (natDigits n) = n :=
  natDigitsAux_val (n + 1) n (by omega)

theorem pad3_val {m : ℕ} (hm : m < 1000) : digitsVal (pad3 m) = m := by
  unfold pad3 digitsVal
  simp only [List.foldl_cons, List.foldl_nil]
  rw [digitChar_toNat (by omega : m / 100 < 10),
    digitChar_toNat (by omega : m / 10 % 10 < 10),
    digitChar_toNat (Nat.mod_lt m (by omega))]
  omega

theorem pad3_length (m : ℕ) : (pad3 m).length = 3 := rfl

theorem pad3_ne_nil (m : ℕ) : pad3 m ≠ [] := by simp [pad3]

/-- Rounding an exact integer gives it back. -/
theorem rheNat_exact (n d : ℕ) (hd : 0 < d) : rheNat (n * d) d = n := by
  unfold rheNat
  have hdiv : n * d / d = n := Nat.mul_div_cancel n hd
  have hmod : n * d % d = 0 := Nat.mul_mod_left n d
  simp only [hdiv, hmod, Nat.mul_zero]
  rw [if_neg (by omega : ¬d < 0), if_pos hd]

/-- Reformatting the canonical three-decimal output reproduces it. -/
theorem fmt3_roundtrip (sg : Bool) (i f : Str) :
    fmt3 sg (natDigits (rheNat (tokScaled i f) (10 ^ f.length) / 1000))
        (pad3 (rheNat (tokScaled i f) (10 ^ f.length) % 1000)) =
      fmt3 sg i f := by
  set n := rheNat (tokScaled i f) (10 ^ f.length) with hn
  show fmt3 sg (natDigits (n / 1000)) (pad3 (n % 1000)) = _
  unfold fmt3
  rw [show tokScaled (natDigits (n / 1000)) (pad3 (n % 1000)) =
      digitsVal (natDigits (n / 1000)) * 10 ^ (pad3 (n % 1000)).length * 1000 +
        digitsVal (pad3 (n % 1000)) * 1000 from rfl]
  rw [natDigits_val, pad3_val (Nat.mod_lt n (by omega)), pad3_length]
  have hts : n / 1000 * 10 ^ 3 * 1000 + n % 1000 * 1000 = n * 10 ^ 3 := by
    have := Nat.div_add_mod n 1000
    ring_nf
    omega
  rw [hts, rheNat_exact n (10 ^ 3) (by norm_num)]

-- ------------------------------------------------------------
-- Head behaviour and run structure of the padding pass
-- ------------------------------------------------------------

/-- On a line starting with a non-digit, padding keeps the head character
or, for a signed token, keeps the sign `'-'`; either way the head stays a
non-digit. -/
theorem padNumbers_head {c : Char} (cs : Str) (hc : c.isDigit = false) :
    ∃ c', (padNumbers (c :: cs)).head? = some c' ∧ c'.isDigit = false ∧
      (c' = c ∨ c' = '-') := by
  cases htk : tryTok (c :: cs) with
  | some x =>
    obtain ⟨sg, i, f, rest⟩ := x
    rw [padNumbers_some htk]
    obtain ⟨hs, hine, -, hid, -, -⟩ := tryTok_decomp htk
    cases sg with
    | false =>
      exfalso
      rw [if_neg (by decide : ¬(false = true)), List.nil_append] at hs
      cases i with
      | nil => exact hine rfl
      | cons a as =>
        have ha : a.isDigit = true := hid a (by simp)
        have : c = a := by
          have := congrArg List.head? hs
          simpa using this
        rw [this, ha] at hc
        cases hc
    | true =>
      have hhead : (fmt3 true i f).head? = some '-' := by
        unfold fmt3
        rfl
      refine ⟨'-', ?_, by decide, Or.inr rfl⟩
      cases hf3 : fmt3 true i f with
      | nil => rw [hf3] at hhead; cases hhead
      | cons d ds =>
        rw [hf3] at hhead
        simp only [List.head?_cons, Option.some_inj] at hhead
        subst hhead
        rfl
  | none =>
    rw [padNumbers_none htk]
    exact ⟨c, rfl, hc, Or.inl rfl⟩

/-- Padding preserves the property of not starting with a digit. -/
theorem padNumbers_head_nondigit {t : Str}
    (h : ∀ c, t.head? = some c → c.isDigit = false) :
    ∀ c, (padNumbers t).head? = some c → c.isDigit = false := by
  intro c hcp
  cases t with
  | nil => cases hcp
  | cons c0 cs =>
    obtain ⟨c', hc', hcd, -⟩ := padNumbers_head cs (h c0 rfl)
    rw [hc'] at hcp
    cases hcp
    exact hcd

/-- Padding a line whose head is a dot steps over the dot. -/
theorem padNumbers_dot_cons (u : Str) :
    padNumbers ('.' :: u) = '.' :: padNumbers u := by
  apply padNumbers_none
  have h1 : tryTok ('.' :: u) =
      if '.' = '-' then Option.map (fun x => (true, x.1, x.2.1, x.2.2)) (tryTokU u)
      else Option.map (fun x => (false, x.1, x.2.1, x.2.2)) (tryTokU ('.' :: u)) := rfl
  rw [h1, if_neg (by decide)]
  rw [tryTokU_none_of_head (fun c hc => by
    simp only [List.head?_cons, Option.some_inj] at hc
    subst hc
    decide)]
  rfl

-- ------------------------------------------------------------
-- The padding pass is idempotent
-- ------------------------------------------------------------

/-- Splitting of `takeWhile`/`dropWhile` at the end of a satisfying run. -/
theorem run_split (p : Char → Bool) (b : Str)
    (hb : ∀ c, b.head? = some c → p c = false) :
    ∀ a : Str, (∀ c ∈ a, p c = true) →
      (a ++ b).takeWhile p = a ∧ (a ++ b).dropWhile p = b := by
  intro a
  induction a with
  | nil =>
    intro _
    cases b with
    | nil => exact ⟨rfl, rfl⟩
    | cons c cs =>
      have hc := hb c rfl
      constructor
      · simp [List.takeWhile_cons, hc]
      · simp [List.dropWhile_cons, hc]
  | cons a0 as ih =>
    intro ha
    have h0 : p a0 = true := ha a0 (by simp)
    obtain ⟨h1, h2⟩ := ih (fun c hc => ha c (by simp [hc]))
    constructor
    · simp [List.cons_append, List.takeWhile_cons, h0, h1]
    · simp [List.cons_append, List.dropWhile_cons, h0, h2]

theorem tryTok_dash (t : Str) :
    tryTok ('-' :: t) = Option.map (fun x => (true, x.1, x.2.1, x.2.2)) (tryTokU t) := by
  have h1 : tryTok ('-' :: t) =
      if '-' = '-' then Option.map (fun x => (true, x.1, x.2.1, x.2.2)) (tryTokU t)
      else Option.map (fun x => (false, x.1, x.2.1, x.2.2)) (tryTokU ('-' :: t)) := rfl
  rw [h1, if_pos rfl]

theorem tryTok_nodash {c : Char} (t : Str) (hc : c ≠ '-') :
    tryTok (c :: t) = Option.map (fun x => (false, x.1, x.2.1, x.2.2)) (tryTokU (c :: t)) := by
  have h1 : tryTok (c :: t) =
      if c = '-' then Option.map (fun x => (true, x.1, x.2.1, x.2.2)) (tryTokU t)
      else Option.map (fun x => (false, x.1, x.2.1, x.2.2)) (tryTokU (c :: t)) := rfl
  rw [h1, if_neg hc]

theorem digit_ne_dash {c : Char} (hc : c.isDigit = true) : c ≠ '-' := by
  intro he
  subst he
  exact absurd hc (by decide)

/-- A failed scan still fails after removing a leading digit. -/
theorem tryTokU_cons_digit {d : Char} {t : Str} (hd : d.isDigit = true)
    (h : tryTokU (d :: t) = none) : tryTokU t = none := by
  cases htu : tryTokU t with
  | none => rfl
  | some x =>
    exfalso
    obtain ⟨i, f, r⟩ := x
    obtain ⟨-, -, u, hdw, hf, hfne, -⟩ := tryTokU_some_spec htu
    have hTW : (d :: t).takeWhile Char.isDigit = d :: t.takeWhile Char.isDigit := by
      simp [List.takeWhile_cons, hd]
    have hDW : (d :: t).dropWhile Char.isDigit = t.dropWhile Char.isDigit := by
      simp [List.dropWhile_cons, hd]
    have hc := @tryTokU_intro (d :: t) u
      (by rw [hTW]; exact List.cons_ne_nil _ _)
      (by rw [hDW]; exact hdw)
      (by rw [← hf]; exact hfne)
    rw [h] at hc
    cases hc

/-- On a line where the scan finds nothing, padding only descends into the
part after the leading digit run. -/
theorem padNumbers_run : ∀ (t : Str), tryTokU t = none →
    padNumbers t = t.takeWhile Char.isDigit ++ padNumbers (t.dropWhile Char.isDigit) := by
  intro t
  induction t with
  | nil => intro _; rfl
  | cons d t' ih =>
    intro h
    cases hd : d.isDigit with
    | false => simp [List.takeWhile_cons, List.dropWhile_cons, hd]
    | true =>
      have hpadc : padNumbers (d :: t') = d :: padNumbers t' := by
        apply padNumbers_none
        rw [tryTok_nodash t' (digit_ne_dash hd), h]
        rfl
      rw [hpadc, ih (tryTokU_cons_digit hd h)]
      simp [List.takeWhile_cons, List.dropWhile_cons, hd]

/-- Core preservation step: a digit-headed line on which the scan fails
still defeats the scan after its tail is padded. -/
theorem tryTokU_cons_pad_none {c : Char} {cs : Str} (hc : c.isDigit = true)
    (h : tryTokU (c :: cs) = none) : tryTokU (c :: padNumbers cs) = none := by
  have hcs : tryTokU cs = none := tryTokU_cons_digit hc h
  cases htu : tryTokU (c :: padNumbers cs) with
  | none => rfl
  | some x =>
    exfalso
    obtain ⟨i, f, r⟩ := x
    obtain ⟨-, -, u, hdw, hf, hfne, -⟩ := tryTokU_some_spec htu
    have hDW : (c :: padNumbers cs).dropWhile Char.isDigit
        = (padNumbers cs).dropWhile Char.isDigit := by
      simp [List.dropWhile_cons, hc]
    have hrun := padNumbers_run cs hcs
    have hTnd : ∀ c', (cs.dropWhile Char.isDigit).head? = some c' → c'.isDigit = false :=
      fun c' hc' => head?_dropWhile Char.isDigit cs c' hc'
    have hpadTnd : ∀ c', (padNumbers (cs.dropWhile Char.isDigit)).head? = some c' →
        c'.isDigit = false := padNumbers_head_nondigit hTnd
    have hDW2 : (padNumbers cs).dropWhile Char.isDigit
        = padNumbers (cs.dropWhile Char.isDigit) := by
      rw [hrun]
      exact (run_split Char.isDigit (padNumbers (cs.dropWhile Char.isDigit)) hpadTnd
        (cs.takeWhile Char.isDigit) (fun d hd => List.mem_takeWhile_imp hd)).2
    have hkey : padNumbers (cs.dropWhile Char.isDigit) = '.' :: u := by
      rw [← hDW2, ← hDW]
      exact hdw
    have huhead : ∃ e u', u = e :: u' ∧ e.isDigit = true := by
      cases hu : u with
      | nil =>
        exfalso
        rw [hu] at hf
        exact hfne (by rw [hf]; rfl)
      | cons e u' =>
        refine ⟨e, u', rfl, ?_⟩
        cases he : e.isDigit with
        | true => rfl
        | false =>
          exfalso
          rw [hu] at hf
          simp [List.takeWhile_cons, he] at hf
          exact hfne hf
    obtain ⟨e, u', hu, he⟩ := huhead
    have hTW1 : (c :: cs).takeWhile Char.isDigit = c :: cs.takeWhile Char.isDigit := by
      simp [List.takeWhile_cons, hc]
    have hDW1 : (c :: cs).dropWhile Char.isDigit = cs.dropWhile Char.isDigit := by
      simp [List.dropWhile_cons, hc]
    cases hT : cs.dropWhile Char.isDigit with
    | nil =>
      rw [hT] at hkey
      have h0 : padNumbers ([] : Str) = [] := rfl
      rw [h0] at hkey
      simp at hkey
    | cons c2 u0 =>
      have hc2 : c2.isDigit = false := hTnd c2 (by rw [hT]; rfl)
      by_cases hdot : c2 = '.'
      · subst hdot
        have hu0 : u0.takeWhile Char.isDigit = [] := by
          by_contra hne
          have hcon := @tryTokU_intro (c :: cs) u0
            (by rw [hTW1]; exact List.cons_ne_nil _ _)
            (by rw [hDW1]; exact hT)
            hne
          rw [h] at hcon
          cases hcon
        have hu0h : ∀ e', u0.head? = some e' → e'.isDigit = false := by
          intro e' he'
          cases u0 with
          | nil => cases he'
          | cons a as =>
            simp only [List.head?_cons, Option.some_inj] at he'
            cases ha : a.isDigit with
            | false => rw [← he']; exact ha
            | true =>
              exfalso
              simp [List.takeWhile_cons, ha] at hu0
        rw [hT, padNumbers_dot_cons] at hkey
        injection hkey with h1 h2
        have hfin := padNumbers_head_nondigit hu0h e (by rw [h2, hu]; rfl)
        simp [he] at hfin
      · rw [hT] at hkey
        obtain ⟨c', hhead, -, hcc⟩ := padNumbers_head u0 hc2
        rw [hkey] at hhead
        simp only [List.head?_cons, Option.some_inj] at hhead
        cases hcc with
        | inl h1 =>
          exact hdot (by rw [← h1, ← hhead])
        | inr h2 =>
          have : ('-' : Char) = '.' := by rw [← h2, ← hhead]
          exact absurd this (by decide)

/-- A failed scan stays failed after the padding pass. -/
theorem tryTokU_pad_none : ∀ (t : Str), tryTokU t = none →
    tryTokU (padNumbers t) = none := by
  intro t h
  cases t with
  | nil => exact h
  | cons c cs =>
    cases hc : c.isDigit with
    | true =>
      have hpadc : padNumbers (c :: cs) = c :: padNumbers cs := by
        apply padNumbers_none
        rw [tryTok_nodash cs (digit_ne_dash hc), h]
        rfl
      rw [hpadc]
      exact tryTokU_cons_pad_none hc h
    | false =>
      apply tryTokU_none_of_head
      obtain ⟨c', hc', hcd, -⟩ := padNumbers_head cs hc
      intro x hx
      rw [hc'] at hx
      injection hx with hx
      subst hx
      exact hcd

theorem tryTok_pad_none {c : Char} {cs : Str} (h : tryTok (c :: cs) = none) :
    tryTok (c :: padNumbers cs) = none := by
  by_cases hdash : c = '-'
  · subst hdash
    rw [tryTok_dash] at h ⊢
    rw [Option.map_eq_none'] at h ⊢
    exact tryTokU_pad_none cs h
  · rw [tryTok_nodash cs hdash] at h
    rw [tryTok_nodash (padNumbers cs) hdash]
    rw [Option.map_eq_none'] at h ⊢
    cases hc : c.isDigit with
    | true => exact tryTokU_cons_pad_none hc h
    | false =>
      apply tryTokU_none_of_head
      intro x hx
      simp only [List.head?_cons, Option.some_inj] at hx
      rw [← hx]
      exact hc

/-- The scanner parses a canonically shaped token at the head of a line. -/
theorem tryTok_canonical (sg : Bool) (nd p3 Y : Str)
    (hnd : nd ≠ []) (hndd : ∀ c ∈ nd, c.isDigit = true)
    (hp3 : p3 ≠ []) (hp3d : ∀ c ∈ p3, c.isDigit = true)
    (hY : ∀ c, Y.head? = some c → c.isDigit = false) :
    tryTok ((if sg then ['-'] else []) ++ nd ++ '.' :: (p3 ++ Y)) =
      some (sg, nd, p3, Y) := by
  have hdot : ∀ c, ('.' :: (p3 ++ Y)).head? = some c → Char.isDigit c = false := by
    intro c hcc
    simp only [List.head?_cons, Option.some_inj] at hcc
    subst hcc
    decide
  obtain ⟨ht1, hd1⟩ := run_split Char.isDigit ('.' :: (p3 ++ Y)) hdot nd hndd
  obtain ⟨ht2, hd2⟩ := run_split Char.isDigit Y hY p3 hp3d
  have hU : tryTokU (nd ++ '.' :: (p3 ++ Y)) = some (nd, p3, Y) := by
    have hc := @tryTokU_intro (nd ++ '.' :: (p3 ++ Y)) (p3 ++ Y)
      (by rw [ht1]; exact hnd)
      hd1
      (by rw [ht2]; exact hp3)
    rw [ht1, ht2, hd2] at hc
    exact hc
  cases sg with
  | true =>
    have hsh : (if (true : Bool) then ['-'] else []) ++ nd ++ '.' :: (p3 ++ Y)
        = '-' :: (nd ++ '.' :: (p3 ++ Y)) := by simp
    rw [hsh, tryTok_dash, hU]
    rfl
  | false =>
    have hsh : (if (false : Bool) then ['-'] else []) ++ nd ++ '.' :: (p3 ++ Y)
        = nd ++ '.' :: (p3 ++ Y) := by simp
    rw [hsh]
    cases nd with
    | nil => exact absurd rfl hnd
    | cons c0 nd' =>
      have hc0 : c0.isDigit = true := hndd c0 (by simp)
      rw [List.cons_append, tryTok_nodash _ (digit_ne_dash hc0), ← List.cons_append, hU]
      rfl

theorem padNumbers_idem_aux : ∀ (n : ℕ) (s : Str), s.length ≤ n →
    padNumbers (padNumbers s) = padNumbers s := by
  intro n
  induction n with
  | zero =>
    intro s hs
    have hnil : s = [] := List.length_eq_zero.mp (Nat.le_zero.mp hs)
    subst hnil
    rfl
  | succ n ih =>
    intro s hs
    cases htk : tryTok s with
    | none =>
      cases s with
      | nil => rfl
      | cons c cs =>
        rw [padNumbers_none htk, padNumbers_none (tryTok_pad_none htk)]
        rw [ih cs (by simp only [List.length_cons] at hs; omega)]
    | some x =>
      obtain ⟨sg, i, f, rest⟩ := x
      have hlen : rest.length ≤ n := by
        have := tryTok_rest_length htk
        omega
      obtain ⟨-, -, -, -, -, hrh⟩ := tryTok_decomp htk
      rw [padNumbers_some htk]
      have hshape : fmt3 sg i f ++ padNumbers rest =
          (if sg then ['-'] else []) ++
            natDigits (rheNat (tokScaled i f) (10 ^ f.length) / 1000) ++
            '.' :: (pad3 (rheNat (tokScaled i f) (10 ^ f.length) % 1000) ++
              padNumbers rest) := by
        show ((if sg then ['-'] else []) ++
            natDigits (rheNat (tokScaled i f) (10 ^ f.length) / 1000) ++ ['.'] ++
            pad3 (rheNat (tokScaled i f) (10 ^ f.length) % 1000)) ++ padNumbers rest = _
        simp [List.append_assoc]
      have hcan := tryTok_canonical sg
        (natDigits (rheNat (tokScaled i f) (10 ^ f.length) / 1000))
        (pad3 (rheNat (tokScaled i f) (10 ^ f.length) % 1000))
        (padNumbers rest) (natDigits_ne_nil _) (natDigits_all_digits _)
        (pad3_ne_nil _) (pad3_all_digits (Nat.mod_lt _ (by omega)))
        (padNumbers_head_nondigit hrh)
      rw [hshape, padNumbers_some hcan, ih rest hlen, fmt3_roundtrip]
      exact hshape

/-- The three-decimal reformatting pass is idempotent. -/
theorem padNumbers_idem (s : Str) : padNumbers (padNumbers s) = padNumbers s :=
  padNumbers_idem_aux s.length s (le_refl _)

-- ------------------------------------------------------------
-- splitlines / join round trip, and identity passes
-- ------------------------------------------------------------

theorem splitCh_cons (ch c : Char) (cs : Str) :
    splitCh ch (c :: cs) =
      if c == ch then [] :: splitCh ch cs
      else match splitCh ch cs with
        | [] => [[c]]
        | h :: t2 => (c :: h) :: t2 := rfl

theorem splitCh_ne_nil (ch : Char) : ∀ t : Str, splitCh ch t ≠ [] := by
  intro t
  cases t with
  | nil => simp [splitCh]
  | cons c cs =>
    rw [splitCh_cons]
    by_cases hc : (c == ch) = true
    · rw [if_pos hc]
      exact List.cons_ne_nil _ _
    · rw [if_neg hc]
      cases hs : splitCh ch cs with
      | nil => exact List.cons_ne_nil _ _
      | cons h t2 => exact List.cons_ne_nil _ _

theorem intercalate_cc (sep x y : Str) (zs : List Str) :
    List.intercalate sep (x :: y :: zs) = x ++ sep ++ List.intercalate sep (y :: zs) := by
  simp [List.intercalate, List.intersperse]

theorem intercalate_shift (sep h : Str) (c : Char) (t2 : List Str) :
    List.intercalate sep ((c :: h) :: t2) = c :: List.intercalate sep (h :: t2) := by
  cases t2 with
  | nil => simp [List.intercalate, List.intersperse]
  | cons b l =>
    rw [intercalate_cc, intercalate_cc]
    rfl

/-- Joining the raw pieces of a character split restores the text. -/
theorem splitCh_join (ch : Char) : ∀ t : Str, List.intercalate [ch] (splitCh ch t) = t := by
  intro t
  induction t with
  | nil => simp [splitCh, List.intercalate]
  | cons c cs ih =>
    rw [splitCh_cons]
    by_cases hc : (c == ch) = true
    · rw [if_pos hc]
      cases hs : splitCh ch cs with
      | nil => exact absurd hs (splitCh_ne_nil ch cs)
      | cons h t2 =>
        rw [intercalate_cc]
        simp only [List.nil_append, List.singleton_append]
        rw [← hs, ih]
        have hceq : c = ch := by simpa using hc
        rw [hceq]
    · rw [if_neg hc]
      cases hs : splitCh ch cs with
      | nil => exact absurd hs (splitCh_ne_nil ch cs)
      | cons h t2 =>
        rw [intercalate_shift, ← hs, ih]

/-- A text not ending in the separator has a nonempty final piece. -/
theorem splitCh_getLast_ne (ch : Char) :
    ∀ (t : Str) (c0 : Char), t.getLast? = some c0 → c0 ≠ ch →
      (splitCh ch t).getLast? ≠ some ([] : Str) := by
  intro t
  induction t with
  | nil => intro c0 h _; cases h
  | cons c cs ih =>
    intro c0 h hne
    cases cs with
    | nil =>
      have hc : c = c0 := by simpa using h
      have hbe : (c == ch) = false := beq_eq_false_iff_ne.mpr (by rw [hc]; exact hne)
      simp [splitCh_cons, hbe, splitCh]
    | cons c2 cs' =>
      rw [List.getLast?_cons_cons] at h
      have ihc := ih c0 h hne
      rw [splitCh_cons]
      by_cases hc : (c == ch) = true
      · rw [if_pos hc]
        cases hs : splitCh ch (c2 :: cs') with
        | nil => exact absurd hs (splitCh_ne_nil ch _)
        | cons hpiece t2 =>
          rw [List.getLast?_cons_cons]
          rw [hs] at ihc
          exact ihc
      · rw [if_neg hc]
        cases hs : splitCh ch (c2 :: cs') with
        | nil => exact absurd hs (splitCh_ne_nil ch _)
        | cons hpiece t2 =>
          rw [hs] at ihc
          cases t2 with
          | nil => simp
          | cons b t2' =>
            rw [List.getLast?_cons_cons]
            rw [List.getLast?_cons_cons] at ihc
            exact ihc

/-- For a text with no trailing newline, `splitlines` then `join` is the
identity. -/
theorem splitlines_join {t : Str} (h : t.getLastD 'x' ≠ '\n') :
    joinNL (splitlinesL t) = t := by
  cases t with
  | nil => rfl
  | cons c cs =>
    have hdef : splitlinesL (c :: cs) =
        if (splitCh '\n' (c :: cs)).getLast? == some ([] : Str)
        then (splitCh '\n' (c :: cs)).dropLast else splitCh '\n' (c :: cs) := rfl
    have hsome : (c :: cs).getLast? = some ((c :: cs).getLastD 'x') := by
      clear h hdef
      induction cs generalizing c with
      | nil => rfl
      | cons b t' ih =>
        rw [List.getLast?_cons_cons, ih b]
        rfl
    have hlast : (splitCh '\n' (c :: cs)).getLast? ≠ some ([] : Str) :=
      splitCh_getLast_ne '\n' (c :: cs) _ hsome h
    rw [hdef, beq_eq_false_iff_ne.mpr hlast, if_neg (by decide : ¬(false = true))]
    show List.intercalate (lstr "\n") _ = _
    rw [show lstr "\n" = ['\n'] from rfl]
    exact splitCh_join '\n' (c :: cs)

theorem dropLinesRec_cons (l : Str) (ls : List Str) :
    dropLinesRec (l :: ls) =
      if dropCondL1 l then
        match ls with
        | [] => []
        | _ :: rest => dropLinesRec rest
      else if dropCondWithin l || dropCondFE l then dropLinesRec ls
      else l :: dropLinesRec ls := by
  rw [dropLinesRec.eq_def]

/-- The row-dropping pass keeps a block of lines none of which matches any
dropping condition. -/
theorem dropLinesRec_id : ∀ ls : List Str, (∀ l ∈ ls, dropAnyCond l = false) →
    dropLinesRec ls = ls := by
  intro ls
  induction ls with
  | nil => intro _; rfl
  | cons l ls ih =>
    intro h
    have hl : dropAnyCond l = false := h l (by simp)
    unfold dropAnyCond at hl
    rw [Bool.or_eq_false_iff, Bool.or_eq_false_iff] at hl
    obtain ⟨⟨h1, h2⟩, h3⟩ := hl
    rw [dropLinesRec_cons, h1, if_neg (by decide : ¬(false = true)), h2, h3,
      Bool.or_self, if_neg (by decide : ¬(false = true))]
    rw [ih (fun l2 h2' => h l2 (by simp [h2']))]

-- ------------------------------------------------------------
-- Absence of the substitution patterns from a processed text
-- ------------------------------------------------------------

theorem replChain_keeps_absent (p : Str) : ∀ (prs : List (Str × Str)) (t : Str),
    chainSafeB prs = true →
    (∀ pr2 ∈ prs, overlapFreeB p pr2.2 = true) →
    ¬ p <:+: t → ¬ p <:+: replChain prs t := by
  intro prs
  induction prs with
  | nil => intro t _ _ h; exact h
  | cons pr0 rest ih =>
    intro t hsafe hov h
    simp only [chainSafeB, Bool.and_eq_true, List.all_eq_true] at hsafe
    obtain ⟨⟨⟨hof0, -⟩, -⟩, hrest⟩ := hsafe
    have hq0ne : pr0.1 ≠ [] := (overlapFreeB_spec hof0).1
    have h1 : ¬ p <:+: replaceL pr0.1 pr0.2 t :=
      replaceL_keeps_absent p pr0.1 pr0.2 hq0ne (hov pr0 (by simp)) t h
    exact ih (replaceL pr0.1 pr0.2 t) hrest (fun pr2 h2 => hov pr2 (by simp [h2])) h1

/-- After a safe substitution chain runs, none of its patterns occurs in
the result. -/
theorem replChain_all_absent : ∀ (prs : List (Str × Str)) (t : Str),
    chainSafeB prs = true →
    ∀ pr ∈ prs, ¬ pr.1 <:+: replChain prs t := by
  intro prs
  induction prs with
  | nil => intro t _ pr hpr; cases hpr
  | cons pr0 rest ih =>
    intro t hsafe pr hpr
    have hsafe' := hsafe
    simp only [chainSafeB, Bool.and_eq_true, List.all_eq_true] at hsafe'
    obtain ⟨⟨⟨hof0, hall0⟩, -⟩, hrest⟩ := hsafe'
    show ¬ pr.1 <:+: replChain rest (replaceL pr0.1 pr0.2 t)
    rcases List.mem_cons.mp hpr with rfl | hmem
    · have h0 : ¬ pr.1 <:+: replaceL pr.1 pr.2 t := replaceL_self_absent _ _ hof0 t
      exact replChain_keeps_absent pr.1 rest _ hrest
        (fun pr2 h2 => hall0 pr2 h2) h0
    · exact ih (replaceL pr0.1 pr0.2 t) hrest pr hmem

theorem chainSafeB_padSafe : ∀ (prs : List (Str × Str)), chainSafeB prs = true →
    ∀ pr ∈ prs, padSafeB pr.1 = true := by
  intro prs
  induction prs with
  | nil => intro _ pr hpr; cases hpr
  | cons pr0 rest ih =>
    intro hsafe pr hpr
    simp only [chainSafeB, Bool.and_eq_true, List.all_eq_true] at hsafe
    obtain ⟨⟨⟨-, -⟩, hps0⟩, hrest⟩ := hsafe
    rcases List.mem_cons.mp hpr with rfl | hmem
    · exact hps0
    · exact ih hrest pr hmem

/-- A chain whose patterns are all absent leaves the text untouched. -/
theorem replChain_id : ∀ (prs : List (Str × Str)) (t : Str),
    (∀ pr ∈ prs, ¬ pr.1 <:+: t) → replChain prs t = t := by
  intro prs
  induction prs with
  | nil => intro t _; rfl
  | cons pr0 rest ih =>
    intro t h
    have h0 : replaceL pr0.1 pr0.2 t = t := replaceL_of_not_infix _ _ t (h pr0 (by simp))
    show replChain rest (replaceL pr0.1 pr0.2 t) = t
    rw [h0]
    exact ih t (fun pr hpr => h pr (by simp [hpr]))

/-- None of the substitution patterns survives into the cleaned text. -/
theorem process_tex_all_absent (mapping : List (Str × Str)) (t : Str)
    (hsafe : chainSafeB (texChain mapping) = true) :
    ∀ pr ∈ texChain mapping, ¬ pr.1 <:+: process_tex mapping t := by
  intro pr hpr
  show ¬ pr.1 <:+: padNumbers (replChain (texChain mapping)
    (joinNL (dropLinesRec (splitlinesL t))))
  exact pad_keeps_absent pr.1 (chainSafeB_padSafe _ hsafe pr hpr) _
    (replChain_all_absent (texChain mapping) _ hsafe pr hpr)

/-- C3 counterexample: the cleanup pass is not idempotent on every text.
On the first text, the interaction-row relabel uncovers a level-term
marker (`l1_herfdepcty` without `dFF` on the line), so the second pass
drops that row and its follower; on the second text, `splitlines`/`join`
removes a trailing newline on each pass. -/
theorem process_tex_not_idempotent :
    (process_tex replacements_panelA (process_tex replacements_panelA
        (lstr "l1\\_herfdepcty $\\times$ dFF l1_herfdepcty\nSEline")) ≠
      process_tex replacements_panelA
        (lstr "l1\\_herfdepcty $\\times$ dFF l1_herfdepcty\nSEline")) ∧
    (process_tex replacements_panelA (process_tex replacements_panelA (lstr "a\n\n")) ≠
      process_tex replacements_panelA (lstr "a\n\n")) := by
  constructor
  · decide
  · decide

/-- C3 (amended): for the two replacement mappings the script uses, the
cleanup pass is idempotent on every fragment text whose cleaned output
keeps no droppable row and does not end in a newline; the two
counterexample behaviours (a relabel uncovering a droppable row, and
trailing-newline loss) are exactly what the hypothesis excludes. -/
theorem process_tex_idem (mapping : List (Str × Str)) (t : Str)
    (hm : mapping = replacements_panelA ∨ mapping = replacements_panelB)
    (hst : cleanStable mapping t = true) :
    process_tex mapping (process_tex mapping t) = process_tex mapping t := by
  have hsafe : chainSafeB (texChain mapping) = true := by
    rcases hm with rfl | rfl
    · decide
    · decide
  simp only [cleanStable, Bool.and_eq_true, List.all_eq_true] at hst
  obtain ⟨hlines, hlastc⟩ := hst
  have hlines' : ∀ l ∈ splitlinesL (process_tex mapping t), dropAnyCond l = false := by
    intro l hl
    simpa using hlines l hl
  have hlast : (process_tex mapping t).getLastD 'x' ≠ '\n' := by
    simpa using hlastc
  have habs : ∀ pr ∈ texChain mapping, ¬ pr.1 <:+: process_tex mapping t :=
    process_tex_all_absent mapping t hsafe
  rw [show process_tex mapping (process_tex mapping t) =
      padNumbers (replChain (texChain mapping)
        (joinNL (dropLinesRec (splitlinesL (process_tex mapping t))))) from rfl]
  rw [dropLinesRec_id _ hlines', splitlines_join hlast,
    replChain_id _ _ habs]
  rw [show process_tex mapping t =
      padNumbers (replChain (texChain mapping)
        (joinNL (dropLinesRec (splitlinesL t)))) from rfl]
  rw [padNumbers_idem]

/-- C3 witness: a concrete stable text for the amended idempotence
theorem. -/
theorem process_tex_idem_witness :
    cleanStable replacements_panelA (lstr "1.5 & x") = true ∧
    process_tex replacements_panelA (process_tex replacements_panelA (lstr "1.5 & x")) =
      process_tex replacements_panelA (lstr "1.5 & x") :=
  ⟨by decide, process_tex_idem replacements_panelA (lstr "1.5 & x") (Or.inl rfl) (by decide)⟩

-- ------------------------------------------------------------
-- Extraction round trip: replaceL structure lemmas
-- ------------------------------------------------------------

/-- With a replacement at least as long as the pattern, replacement never
shortens the text. -/
theorem replaceL_length_ge (p r : Str) (hlen : p.length ≤ r.length) :
    ∀ (n : ℕ) (t : Str), t.length ≤ n → t.length ≤ (replaceL p r t).length := by
  intro n
  induction n with
  | zero =>
    intro t ht
    have hnil : t = [] := List.length_eq_zero.mp (Nat.le_zero.mp ht)
    subst hnil
    rw [replaceL_nil]
  | succ n ih =>
    intro t ht
    cases t with
    | nil => rw [replaceL_nil]
    | cons c cs =>
      by_cases hp : p = []
      · subst hp
        have hid : replaceL [] r (c :: cs) = c :: cs := rfl
        rw [hid]
      · cases hpre : isPrefB p (c :: cs) with
        | true =>
          rw [replaceL_cons_pos p r c cs hpre hp, List.length_append]
          have hd : (cs.drop (p.length - 1)).length ≤ n := by
            simp only [List.length_drop]
            simp only [List.length_cons] at ht
            omega
          have hrec := ih (cs.drop (p.length - 1)) hd
          simp only [List.length_drop] at hrec
          have hplen : 1 ≤ p.length := by
            cases p with
            | nil => exact absurd rfl hp
            | cons a b => simp
          have hple : p.length ≤ cs.length + 1 := by
            have hpr := (isPrefB_iff p (c :: cs)).mp hpre
            simpa using hpr.length_le
          simp only [List.length_cons]
          omega
        | false =>
          rw [replaceL_cons_neg p r c cs hpre]
          simp only [List.length_cons]
          have hrec := ih cs (by simp only [List.length_cons] at ht; omega)
          omega

/-- A text shorter than the pattern is untouched. -/
theorem replaceL_short {p r t : Str} (h : t.length < p.length) : replaceL p r t = t := by
  apply replaceL_of_not_infix
  intro hc
  exact absurd hc.length_le (by omega)

/-- Replacement distributes over an append whose second part contains no
occurrence and cannot complete a straddling occurrence. -/
theorem replaceL_append (p r : Str) (hp : p ≠ []) :
    ∀ (n : ℕ) (x y : Str), x.length ≤ n →
      (¬ p <:+: y) →
      (∀ s, s <:+ x → s ≠ [] → s.length < p.length → ¬ (p <+: s ++ y)) →
      replaceL p r (x ++ y) = replaceL p r x ++ y := by
  intro n
  induction n with
  | zero =>
    intro x y hx hy _
    have hnil : x = [] := List.length_eq_zero.mp (Nat.le_zero.mp hx)
    subst hnil
    rw [List.nil_append, replaceL_nil, List.nil_append]
    exact replaceL_of_not_infix p r y hy
  | succ n ih =>
    intro x y hx hy hstr
    cases x with
    | nil =>
      rw [List.nil_append, replaceL_nil, List.nil_append]
      exact replaceL_of_not_infix p r y hy
    | cons c cs =>
      rw [List.cons_append]
      cases hpre : isPrefB p (c :: (cs ++ y)) with
      | true =>
        have hfit : p.length ≤ cs.length + 1 := by
          by_contra hlong
          push_neg at hlong
          refine hstr (c :: cs) (List.suffix_refl _) (List.cons_ne_nil _ _)
            (by simpa using hlong) ?_
          have hpr := (isPrefB_iff p (c :: (cs ++ y))).mp hpre
          rw [← List.cons_append] at hpr
          exact hpr
        have hpre2 : isPrefB p (c :: cs) = true := by
          rw [isPrefB_iff]
          have h1 := (isPrefB_iff p (c :: (cs ++ y))).mp hpre
          rw [← List.cons_append] at h1
          exact List.prefix_of_prefix_length_le h1 (List.prefix_append _ _) (by simpa using hfit)
        rw [replaceL_cons_pos p r c (cs ++ y) hpre hp,
          replaceL_cons_pos p r c cs hpre2 hp]
        rw [List.drop_append_of_le_length (by omega : p.length - 1 ≤ cs.length)]
        rw [List.append_assoc]
        congr 1
        apply ih
        · simp only [List.length_drop]
          simp only [List.length_cons] at hx
          omega
        · exact hy
        · intro s hs hsne hslen
          exact hstr s ((hs.trans (List.drop_suffix _ _)).trans (List.suffix_cons _ _))
            hsne hslen
      | false =>
        have hpre2 : isPrefB p (c :: cs) = false := by
          cases hb : isPrefB p (c :: cs) with
          | false => rfl
          | true =>
            exfalso
            have hpr := (isPrefB_iff p (c :: cs)).mp hb
            have hpr2 : p <+: (c :: cs) ++ y := hpr.trans (List.prefix_append _ _)
            rw [List.cons_append, ← isPrefB_iff] at hpr2
            rw [hpre] at hpr2
            cases hpr2
        rw [replaceL_cons_neg p r c (cs ++ y) hpre, replaceL_cons_neg p r c cs hpre2,
          List.cons_append]
        congr 1
        apply ih
        · simp only [List.length_cons] at hx
          omega
        · exact hy
        · intro s hs hsne hslen
          exact hstr s (hs.trans (List.suffix_cons _ _)) hsne hslen

/-- Replacement fires on a literal leading occurrence of the pattern. -/
theorem replaceL_block (p r z : Str) (hp : p ≠ []) :
    replaceL p r (p ++ z) = r ++ replaceL p r z := by
  cases p with
  | nil => exact absurd rfl hp
  | cons a as =>
    rw [List.cons_append]
    rw [replaceL_cons_pos (a :: as) r a (as ++ z)
      (by rw [isPrefB_iff, ← List.cons_append]; exact List.prefix_append _ _)
      (List.cons_ne_nil a as)]
    congr 1
    rw [show (a :: as).length - 1 = as.length from by simp]
    rw [List.drop_append_of_le_length (le_refl _), List.drop_length, List.nil_append]

/-- A property of the last character survives replacement when the
replacement text itself ends in a character with the property. -/
theorem replaceL_getLast_pred (p r : Str) (P : Char → Prop) (hlen : p.length ≤ r.length)
    (hr : ∀ c, r.getLast? = some c → P c) :
    ∀ (n : ℕ) (t : Str), t.length ≤ n → (∀ c, t.getLast? = some c → P c) →
      ∀ c, (replaceL p r t).getLast? = some c → P c := by
  intro n
  induction n with
  | zero =>
    intro t ht _ c hc
    have hnil : t = [] := List.length_eq_zero.mp (Nat.le_zero.mp ht)
    subst hnil
    rw [replaceL_nil] at hc
    cases hc
  | succ n ih =>
    intro t ht hlast c hc
    cases t with
    | nil =>
      rw [replaceL_nil] at hc
      cases hc
    | cons c0 cs =>
      by_cases hp : p = []
      · subst hp
        have hid : replaceL [] r (c0 :: cs) = c0 :: cs := rfl
        rw [hid] at hc
        exact hlast c hc
      · cases hpre : isPrefB p (c0 :: cs) with
        | true =>
          rw [replaceL_cons_pos p r c0 cs hpre hp] at hc
          cases hR : replaceL p r (cs.drop (p.length - 1)) with
          | nil =>
            rw [hR, List.append_nil] at hc
            exact hr c hc
          | cons d ds =>
            rw [hR, List.getLast?_append_of_ne_nil r (List.cons_ne_nil d ds)] at hc
            refine ih (cs.drop (p.length - 1)) ?_ ?_ c (by rw [hR]; exact hc)
            · simp only [List.length_drop]
              simp only [List.length_cons] at ht
              omega
            · intro e he
              apply hlast e
              obtain ⟨pre, hpre2⟩ :=
                (List.drop_suffix (p.length - 1) cs).trans (List.suffix_cons c0 cs)
              rw [← hpre2]
              rw [List.getLast?_append_of_ne_nil pre (by
                intro hz
                rw [hz] at he
                cases he)]
              exact he
        | false =>
          rw [replaceL_cons_neg p r c0 cs hpre] at hc
          cases hR : replaceL p r cs with
          | nil =>
            have hcs : cs = [] := by
              have hge := replaceL_length_ge p r hlen cs.length cs (le_refl _)
              rw [hR] at hge
              simpa using List.length_eq_zero.mp (Nat.le_zero.mp hge)
            subst hcs
            rw [replaceL_nil] at hc
            exact hlast c hc
          | cons d ds =>
            rw [hR, List.getLast?_cons_cons] at hc
            have hcsne : cs ≠ [] := by
              intro hz
              rw [hz, replaceL_nil] at hR
              cases hR
            refine ih cs (by simp only [List.length_cons] at ht; omega) ?_ c
              (by rw [hR]; exact hc)
            intro e he
            apply hlast e
            cases cs with
            | nil => exact absurd rfl hcsne
            | cons b bs =>
              rw [List.getLast?_cons_cons]
              exact he

-- ------------------------------------------------------------
-- Whitespace and split utilities for the extraction round trip
-- ------------------------------------------------------------

theorem endsWithL_iff (suf s : Str) : endsWithL suf s = true ↔ suf <:+ s := by
  unfold endsWithL
  rw [isPrefB_iff]
  exact List.reverse_prefix

theorem splitCh_nosep (ch : Char) : ∀ t : Str, (∀ c ∈ t, (c == ch) = false) →
    splitCh ch t = [t] := by
  intro t
  induction t with
  | nil => intro _; rfl
  | cons c cs ih =>
    intro h
    rw [splitCh_cons, if_neg (by simp [h c (by simp)])]
    rw [ih (fun d hd => h d (by simp [hd]))]

theorem dropWhile_append_all (p : Char → Bool) : ∀ (a b : Str), (∀ c ∈ a, p c = true) →
    (a ++ b).dropWhile p = b.dropWhile p := by
  intro a
  induction a with
  | nil => intro b _; rfl
  | cons c cs ih =>
    intro b h
    rw [List.cons_append, List.dropWhile_cons, if_pos (h c (by simp))]
    exact ih b (fun d hd => h d (by simp [hd]))

theorem pyRstrip_append_ws (A w : Str) (hw : ∀ c ∈ w, pyIsWs c = true) :
    pyRstrip (A ++ w) = pyRstrip A := by
  unfold pyRstrip
  rw [List.reverse_append]
  rw [dropWhile_append_all pyIsWs w.reverse A.reverse
    (fun c hc => hw c (List.mem_reverse.mp hc))]

theorem pyRstrip_eq_self {A : Str} (h : ∀ c, A.getLast? = some c → pyIsWs c = false) :
    pyRstrip A = A := by
  unfold pyRstrip
  have hdw : A.reverse.dropWhile pyIsWs = A.reverse := by
    cases hA : A.reverse with
    | nil => rfl
    | cons c cs =>
      have hcA : A.getLast? = some c := by
        rw [← List.head?_reverse A, hA]
        rfl
      rw [List.dropWhile_cons, if_neg (by simp [h c hcA])]
  rw [hdw, List.reverse_reverse]

/-- Every text is its right-strip followed by a whitespace run, and the
right-strip ends in a non-whitespace character. -/
theorem pyRstrip_decomp (t : Str) :
    ∃ w, t = pyRstrip t ++ w ∧ (∀ c ∈ w, pyIsWs c = true) ∧
      (∀ c, (pyRstrip t).getLast? = some c → pyIsWs c = false) := by
  refine ⟨(t.reverse.takeWhile pyIsWs).reverse, ?_, ?_, ?_⟩
  · rw [show pyRstrip t ++ (t.reverse.takeWhile pyIsWs).reverse =
        (t.reverse.takeWhile pyIsWs ++ t.reverse.dropWhile pyIsWs).reverse from by
      rw [List.reverse_append]; rfl]
    rw [List.takeWhile_append_dropWhile, List.reverse_reverse]
  · intro c hc
    exact List.mem_takeWhile_imp (List.mem_reverse.mp hc)
  · intro c hcl
    unfold pyRstrip at hcl
    rw [List.getLast?_reverse] at hcl
    exact head?_dropWhile pyIsWs t.reverse c hcl

-- ------------------------------------------------------------
-- The shield/restore round trip of the cell extraction
-- ------------------------------------------------------------

/-- Matching a tail of the placeholder against shielded text forces the
remaining stem characters to occur literally in the original text. -/
theorem shield_stem_block :
    ∀ (n : ℕ) (u : Str), u.length ≤ n → ∀ j, 1 ≤ j → j ≤ 18 →
      AMP_PLACEHOLDER.drop j <+: replaceL ESC_AMP AMP_PLACEHOLDER u →
      (AMP_PLACEHOLDER.drop j).take (18 - j) <+: u := by
  intro n
  induction n with
  | zero =>
    intro u hu j hj1 hj18 hm
    have hnil : u = [] := List.length_eq_zero.mp (Nat.le_zero.mp hu)
    subst hnil
    rw [replaceL_nil] at hm
    have hdnil := List.prefix_nil.mp hm
    have hlen := congrArg List.length hdnil
    simp only [List.length_drop, List.length_nil] at hlen
    have hPH : AMP_PLACEHOLDER.length = 20 := rfl
    omega
  | succ n ih =>
    intro u hu j hj1 hj18 hm
    by_cases hj : j = 18
    · subst hj
      simp only [Nat.sub_self, List.take_zero]
      exact List.nil_prefix
    · cases u with
      | nil =>
        rw [replaceL_nil] at hm
        have hdnil := List.prefix_nil.mp hm
        have hlen := congrArg List.length hdnil
        simp only [List.length_drop, List.length_nil] at hlen
        have hPH : AMP_PLACEHOLDER.length = 20 := rfl
        omega
      | cons c u' =>
        cases hpre : isPrefB ESC_AMP (c :: u') with
        | true =>
          exfalso
          rw [replaceL_cons_pos ESC_AMP AMP_PLACEHOLDER c u' hpre (by decide)] at hm
          have hlenle : (AMP_PLACEHOLDER.drop j).length ≤ AMP_PLACEHOLDER.length := by
            simp [List.length_drop]
          have hdropPH : AMP_PLACEHOLDER.drop j <+: AMP_PLACEHOLDER :=
            List.prefix_of_prefix_length_le hm (List.prefix_append _ _) hlenle
          have hfact : ∀ i, i < 17 →
              isPrefB (AMP_PLACEHOLDER.drop (i + 1)) AMP_PLACEHOLDER = false := by decide
          have hfj := hfact (j - 1) (by omega)
          rw [show j - 1 + 1 = j from by omega] at hfj
          have htrue := (isPrefB_iff _ _).mpr hdropPH
          rw [htrue] at hfj
          cases hfj
        | false =>
          rw [replaceL_cons_neg ESC_AMP AMP_PLACEHOLDER c u' hpre] at hm
          cases hdj : AMP_PLACEHOLDER.drop j with
          | nil =>
            have hlen := congrArg List.length hdj
            simp only [List.length_drop, List.length_nil] at hlen
            have hPH : AMP_PLACEHOLDER.length = 20 := rfl
            omega
          | cons d rest =>
            have hrest : rest = AMP_PLACEHOLDER.drop (j + 1) := by
              have htl := List.tail_drop AMP_PLACEHOLDER j
              rw [hdj] at htl
              exact htl
            rw [hdj] at hm
            obtain ⟨hdc, hrpre⟩ := List.cons_prefix_cons.mp hm
            rw [hrest] at hrpre
            have hihp := ih u' (by simp only [List.length_cons] at hu; omega)
              (j + 1) (by omega) (by omega) hrpre
            rw [show (18 : ℕ) - j = (18 - (j + 1)) + 1 from by omega,
              List.take_succ_cons]
            exact List.cons_prefix_cons.mpr ⟨hdc, by rw [hrest]; exact hihp⟩

/-- Restoring after shielding is the identity on placeholder-stem-free
text. -/
theorem restore_shield :
    ∀ (n : ℕ) (u : Str), u.length ≤ n → ¬ (PH_STEM <:+: u) →
      replaceL AMP_PLACEHOLDER ESC_AMP (replaceL ESC_AMP AMP_PLACEHOLDER u) = u := by
  intro n
  induction n with
  | zero =>
    intro u hu _
    have hnil : u = [] := List.length_eq_zero.mp (Nat.le_zero.mp hu)
    subst hnil
    rw [replaceL_nil, replaceL_nil]
  | succ n ih =>
    intro u hu hstem
    cases u with
    | nil => rw [replaceL_nil, replaceL_nil]
    | cons c u' =>
      cases hpre : isPrefB ESC_AMP (c :: u') with
      | true =>
        rw [replaceL_cons_pos ESC_AMP AMP_PLACEHOLDER c u' hpre (by decide)]
        rw [show ESC_AMP.length - 1 = 1 from rfl]
        rw [replaceL_block AMP_PLACEHOLDER ESC_AMP _ (by decide)]
        rw [ih (u'.drop 1)
          (by simp only [List.length_cons] at hu; simp only [List.length_drop]; omega)
          (fun hinf => hstem (hinf.trans
            (((List.drop_suffix 1 u').trans (List.suffix_cons c u')).isInfix)))]
        have hu2 := (isPrefB_iff ESC_AMP (c :: u')).mp hpre
        obtain ⟨z, hz⟩ := hu2
        have hz1 : '\\' :: '&' :: z = c :: u' := hz
        injection hz1 with hc1 hz2
        rw [← hc1, ← hz2]
        rfl
      | false =>
        rw [replaceL_cons_neg ESC_AMP AMP_PLACEHOLDER c u' hpre]
        have hnoPH : isPrefB AMP_PLACEHOLDER
            (c :: replaceL ESC_AMP AMP_PLACEHOLDER u') = false := by
          cases hb : isPrefB AMP_PLACEHOLDER (c :: replaceL ESC_AMP AMP_PLACEHOLDER u') with
          | false => rfl
          | true =>
            exfalso
            have hp := (isPrefB_iff _ _).mp hb
            have hPH1 : AMP_PLACEHOLDER = '_' :: AMP_PLACEHOLDER.drop 1 := rfl
            rw [hPH1] at hp
            obtain ⟨hc1, hp2⟩ := List.cons_prefix_cons.mp hp
            have hblock := shield_stem_block n u'
              (by simp only [List.length_cons] at hu; omega) 1 (by omega) (by omega) hp2
            apply hstem
            have hpref : PH_STEM <+: c :: u' := by
              rw [show PH_STEM = '_' :: (AMP_PLACEHOLDER.drop 1).take 17 from rfl]
              exact List.cons_prefix_cons.mpr ⟨hc1, hblock⟩
            exact hpref.isInfix
        rw [replaceL_cons_neg AMP_PLACEHOLDER ESC_AMP c _ hnoPH]
        rw [ih u' (by simp only [List.length_cons] at hu; omega)
          (fun hinf => hstem (hinf.trans ((List.suffix_cons c u').isInfix)))]

/-- The shielded text ends in the row terminator only if the original
line does. -/
theorem shield_term_suffix :
    ∀ (n : ℕ) (t : Str), t.length ≤ n →
      ROW_TERM <:+ replaceL ESC_AMP AMP_PLACEHOLDER t → ROW_TERM <:+ t := by
  intro n
  induction n with
  | zero =>
    intro t ht hm
    have hnil : t = [] := List.length_eq_zero.mp (Nat.le_zero.mp ht)
    subst hnil
    rw [replaceL_nil] at hm
    exact absurd (List.suffix_nil.mp hm) (by decide)
  | succ n ih =>
    intro t ht hm
    cases t with
    | nil =>
      rw [replaceL_nil] at hm
      exact absurd (List.suffix_nil.mp hm) (by decide)
    | cons c t' =>
      cases hpre : isPrefB ESC_AMP (c :: t') with
      | true =>
        rw [replaceL_cons_pos ESC_AMP AMP_PLACEHOLDER c t' hpre (by decide),
          show ESC_AMP.length - 1 = 1 from rfl] at hm
        by_cases h2 : 2 ≤ (replaceL ESC_AMP AMP_PLACEHOLDER (t'.drop 1)).length
        · have hm' := List.reverse_prefix.mpr hm
          rw [List.reverse_append] at hm'
          have hm2' : ROW_TERM.reverse <+:
              (replaceL ESC_AMP AMP_PLACEHOLDER (t'.drop 1)).reverse :=
            List.prefix_of_prefix_length_le hm' (List.prefix_append _ _)
              (by
                simp only [List.length_reverse]
                have hRT : ROW_TERM.length = 2 := rfl
                omega)
          have hm2 : ROW_TERM <:+ replaceL ESC_AMP AMP_PLACEHOLDER (t'.drop 1) :=
            List.reverse_prefix.mp hm2'
          have hih := ih (t'.drop 1)
            (by simp only [List.length_cons] at ht; simp only [List.length_drop]; omega) hm2
          exact hih.trans ((List.drop_suffix 1 t').trans (List.suffix_cons c t'))
        · push_neg at h2
          have hge := replaceL_length_ge ESC_AMP AMP_PLACEHOLDER (by decide)
            (t'.drop 1).length (t'.drop 1) (le_refl _)
          have hshort : replaceL ESC_AMP AMP_PLACEHOLDER (t'.drop 1) = t'.drop 1 :=
            replaceL_short (by
              show (t'.drop 1).length < ESC_AMP.length
              have hE : ESC_AMP.length = 2 := rfl
              omega)
          rw [hshort] at hm
          cases htd : t'.drop 1 with
          | nil =>
            rw [htd, List.append_nil] at hm
            exact absurd hm (by decide)
          | cons d rest =>
            exfalso
            have hrlen : rest = [] := by
              rw [hshort] at h2
              rw [htd] at h2
              simp only [List.length_cons] at h2
              exact List.length_eq_zero.mp (by omega)
            subst hrlen
            rw [htd] at hm
            have hm' := List.reverse_prefix.mpr hm
            rw [List.reverse_append] at hm'
            have hm'' : ROW_TERM.reverse <+: d :: AMP_PLACEHOLDER.reverse := by
              simpa using hm'
            rw [show ROW_TERM.reverse = '\\' :: ['\\'] from rfl] at hm''
            obtain ⟨hd1, hrest2⟩ := List.cons_prefix_cons.mp hm''
            exact absurd hrest2 (by decide)
      | false =>
        rw [replaceL_cons_neg ESC_AMP AMP_PLACEHOLDER c t' hpre] at hm
        by_cases h2 : 2 ≤ (replaceL ESC_AMP AMP_PLACEHOLDER t').length
        · have hm2 : ROW_TERM <:+ replaceL ESC_AMP AMP_PLACEHOLDER t' := by
            obtain ⟨pre, hpre2⟩ := hm
            cases pre with
            | nil =>
              exfalso
              have hlc := congrArg List.length hpre2
              simp only [List.nil_append, List.length_cons] at hlc
              have hRT : ROW_TERM.length = 2 := rfl
              omega
            | cons e pre' =>
              rw [List.cons_append] at hpre2
              injection hpre2 with he hp2
              exact ⟨pre', hp2⟩
          have hih := ih t' (by simp only [List.length_cons] at ht; omega) hm2
          exact hih.trans (List.suffix_cons c t')
        · push_neg at h2
          have hge := replaceL_length_ge ESC_AMP AMP_PLACEHOLDER (by decide)
            t'.length t' (le_refl _)
          have hshort : replaceL ESC_AMP AMP_PLACEHOLDER t' = t' :=
            replaceL_short (by
              show t'.length < ESC_AMP.length
              have hE : ESC_AMP.length = 2 := rfl
              omega)
          rw [hshort] at hm
          exact hm

/-- Core of the no-separator case: on a line decomposed as a clean part
followed by trailing whitespace, with no placeholder stem, the per-cell
post-processing of the shielded line equals the direct trim/strip of the
line. -/
theorem processPart_shield (q1 w : Str)
    (hw2 : ∀ c ∈ w, pyIsWs c = true)
    (hlastq1 : ∀ c, q1.getLast? = some c → pyIsWs c = false)
    (hstem : ¬ PH_STEM <:+: (q1 ++ w)) :
    processPart (replaceL ESC_AMP AMP_PLACEHOLDER (q1 ++ w)) =
      pyStrip (if endsWithL ROW_TERM q1
        then pyRstrip (q1.take (q1.length - 2)) else q1) := by
  have hq1s : ¬ PH_STEM <:+: q1 :=
    fun hinf => hstem (hinf.trans (List.prefix_append q1 w).isInfix)
  have hstr_ws : ∀ (y : Str), (∀ c ∈ y, pyIsWs c = true) →
      ∀ s : Str, s ≠ [] → s.length < ESC_AMP.length → ¬ (ESC_AMP <+: s ++ y) := by
    intro y hy s hsne hslen hq
    cases s with
    | nil => exact hsne rfl
    | cons a s' =>
      have hs' : s' = [] := by
        simp only [List.length_cons] at hslen
        have hE : ESC_AMP.length = 2 := rfl
        rw [hE] at hslen
        exact List.length_eq_zero.mp (by omega)
      subst hs'
      rw [show ESC_AMP = '\\' :: ['&'] from rfl] at hq
      obtain ⟨h1, h2⟩ := List.cons_prefix_cons.mp hq
      cases hy2 : y with
      | nil =>
        subst hy2
        exact absurd (List.prefix_nil.mp h2) (by decide)
      | cons b bs =>
        subst hy2
        obtain ⟨h3, -⟩ := List.cons_prefix_cons.mp h2
        have hb := hy b (by simp)
        rw [← h3] at hb
        exact absurd hb (by decide)
  have hnoinf_ws : ∀ (y : Str), (∀ c ∈ y, pyIsWs c = true) → ¬ ESC_AMP <:+: y := by
    intro y hy hq
    have hmem : '&' ∈ y := hq.sublist.subset (by decide)
    exact absurd (hy '&' hmem) (by decide)
  have S1 : replaceL ESC_AMP AMP_PLACEHOLDER (q1 ++ w) =
      replaceL ESC_AMP AMP_PLACEHOLDER q1 ++ w :=
    replaceL_append ESC_AMP AMP_PLACEHOLDER (by decide) q1.length q1 w (le_refl _)
      (hnoinf_ws w hw2) (fun s _ hsne hslen => hstr_ws w hw2 s hsne hslen)
  have hlast_shield : ∀ (t : Str), (∀ c, t.getLast? = some c → pyIsWs c = false) →
      ∀ c, (replaceL ESC_AMP AMP_PLACEHOLDER t).getLast? = some c → pyIsWs c = false := by
    intro t htl
    refine replaceL_getLast_pred ESC_AMP AMP_PLACEHOLDER (fun c => pyIsWs c = false)
      (by decide) ?_ t.length t (le_refl _) htl
    intro c hc
    have hPHl : AMP_PLACEHOLDER.getLast? = some '_' := by decide
    rw [hPHl] at hc
    injection hc with hc
    rw [← hc]
    decide
  have S2 : pyRstrip (replaceL ESC_AMP AMP_PLACEHOLDER (q1 ++ w)) =
      replaceL ESC_AMP AMP_PLACEHOLDER q1 := by
    rw [S1, pyRstrip_append_ws _ _ hw2]
    exact pyRstrip_eq_self (hlast_shield q1 hlastq1)
  have hpp : ∀ X : Str, processPart X = pyStrip (replaceL AMP_PLACEHOLDER ESC_AMP
      (if endsWithL ROW_TERM (pyRstrip X)
       then pyRstrip ((pyRstrip X).take ((pyRstrip X).length - 2))
       else pyRstrip X)) := fun X => rfl
  rw [hpp, S2]
  cases hterm : endsWithL ROW_TERM q1 with
  | true =>
    obtain ⟨A, hA⟩ := (endsWithL_iff ROW_TERM q1).mp hterm
    have S3 : replaceL ESC_AMP AMP_PLACEHOLDER q1 =
        replaceL ESC_AMP AMP_PLACEHOLDER A ++ ROW_TERM := by
      rw [← hA]
      refine replaceL_append ESC_AMP AMP_PLACEHOLDER (by decide) A.length A ROW_TERM
        (le_refl _) (by decide) ?_
      intro s _ hsne hslen hq
      cases s with
      | nil => exact hsne rfl
      | cons a s' =>
        have hs' : s' = [] := by
          simp only [List.length_cons] at hslen
          have hE : ESC_AMP.length = 2 := rfl
          rw [hE] at hslen
          exact List.length_eq_zero.mp (by omega)
        subst hs'
        rw [show ESC_AMP = '\\' :: ['&'] from rfl] at hq
        obtain ⟨-, h2⟩ := List.cons_prefix_cons.mp hq
        exact absurd h2 (by decide)
    have hterm2 : endsWithL ROW_TERM (replaceL ESC_AMP AMP_PLACEHOLDER q1) = true := by
      rw [endsWithL_iff, S3]
      exact List.suffix_append _ _
    rw [if_pos hterm2, if_pos (rfl : (true : Bool) = true)]
    have S4 : (replaceL ESC_AMP AMP_PLACEHOLDER q1).take
        ((replaceL ESC_AMP AMP_PLACEHOLDER q1).length - 2) =
        replaceL ESC_AMP AMP_PLACEHOLDER A := by
      rw [S3, List.length_append, show ROW_TERM.length = 2 from rfl,
        Nat.add_sub_cancel, List.take_left]
    have hq1A : q1.take (q1.length - 2) = A := by
      rw [← hA, List.length_append, show ROW_TERM.length = 2 from rfl,
        Nat.add_sub_cancel, List.take_left]
    rw [S4, hq1A]
    obtain ⟨w2, hA1, hA2, hA3⟩ := pyRstrip_decomp A
    have S5 : replaceL ESC_AMP AMP_PLACEHOLDER A =
        replaceL ESC_AMP AMP_PLACEHOLDER (pyRstrip A) ++ w2 := by
      rw [show replaceL ESC_AMP AMP_PLACEHOLDER A =
          replaceL ESC_AMP AMP_PLACEHOLDER (pyRstrip A ++ w2) from by rw [← hA1]]
      exact replaceL_append ESC_AMP AMP_PLACEHOLDER (by decide) (pyRstrip A).length
        (pyRstrip A) w2 (le_refl _) (hnoinf_ws w2 hA2)
        (fun s _ hsne hslen => hstr_ws w2 hA2 s hsne hslen)
    have S6 : pyRstrip (replaceL ESC_AMP AMP_PLACEHOLDER A) =
        replaceL ESC_AMP AMP_PLACEHOLDER (pyRstrip A) := by
      rw [S5, pyRstrip_append_ws _ _ hA2]
      exact pyRstrip_eq_self (hlast_shield (pyRstrip A) hA3)
    rw [S6]
    have hstemA : ¬ PH_STEM <:+: pyRstrip A := by
      intro hinf
      apply hstem
      have hp1 : pyRstrip A <+: A := ⟨w2, hA1.symm⟩
      have hp2 : A <+: q1 := ⟨ROW_TERM, hA⟩
      have hp3 : q1 <+: q1 ++ w := List.prefix_append _ _
      exact hinf.trans ((hp1.trans (hp2.trans hp3)).isInfix)
    rw [restore_shield (pyRstrip A).length (pyRstrip A) (le_refl _) hstemA]
  | false =>
    have hterm2 : endsWithL ROW_TERM (replaceL ESC_AMP AMP_PLACEHOLDER q1) = false := by
      cases hb : endsWithL ROW_TERM (replaceL ESC_AMP AMP_PLACEHOLDER q1) with
      | false => rfl
      | true =>
        exfalso
        have hs := (endsWithL_iff _ _).mp hb
        have hs2 := shield_term_suffix q1.length q1 (le_refl _) hs
        have hcon := (endsWithL_iff ROW_TERM q1).mpr hs2
        rw [hterm] at hcon
        cases hcon
    rw [if_neg (by rw [hterm2]; decide), if_neg (by decide : ¬((false : Bool) = true))]
    rw [restore_shield q1.length q1 (le_refl _) hq1s]

/-- C9 (amended): a line with no unescaped column separator (after
shielding, no separator remains) and no occurrence of the internal
placeholder stem yields no cells when the label-discarding option is set;
without it, at most one cell: the whitespace-trimmed line after removal
of a trailing row-terminator token, and no cell when that residue is
empty. -/
theorem extract_no_separator_amended (line : Str)
    (h1 : containsAmp (replaceL ESC_AMP AMP_PLACEHOLDER line) = false)
    (h2 : occursB PH_STEM line = false) :
    extract_values_from_row line true = [] ∧
    extract_values_from_row line false =
      (if (pyStrip (if endsWithL ROW_TERM (pyRstrip line)
            then pyRstrip ((pyRstrip line).take ((pyRstrip line).length - 2))
            else pyRstrip line)).isEmpty
       then []
       else [pyStrip (if endsWithL ROW_TERM (pyRstrip line)
            then pyRstrip ((pyRstrip line).take ((pyRstrip line).length - 2))
            else pyRstrip line)]) := by
  have hamp : ∀ c ∈ replaceL ESC_AMP AMP_PLACEHOLDER line, (c == '&') = false := by
    intro c hc
    cases hb : (c == '&') with
    | false => rfl
    | true =>
      exfalso
      unfold containsAmp at h1
      exact List.any_eq_false.mp h1 c hc hb
  have hsplit : splitCh '&' (replaceL ESC_AMP AMP_PLACEHOLDER line) =
      [replaceL ESC_AMP AMP_PLACEHOLDER line] :=
    splitCh_nosep '&' _ hamp
  constructor
  · have e1 : extract_values_from_row line true =
        (((splitCh '&' (replaceL ESC_AMP AMP_PLACEHOLDER line)).drop 1).map
          processPart).filter (fun p => !p.isEmpty) := rfl
    rw [e1, hsplit]
    rfl
  · have e2 : extract_values_from_row line false =
        ((splitCh '&' (replaceL ESC_AMP AMP_PLACEHOLDER line)).map
          processPart).filter (fun p => !p.isEmpty) := rfl
    rw [e2, hsplit]
    obtain ⟨w, hw1, hw2, hw3⟩ := pyRstrip_decomp line
    have hstem : ¬ PH_STEM <:+: (pyRstrip line ++ w) := by
      rw [← hw1]
      intro hinf
      have hocc := (occursB_iff PH_STEM line).mpr hinf
      rw [h2] at hocc
      cases hocc
    have hcell := processPart_shield (pyRstrip line) w hw2 hw3 hstem
    rw [← hw1] at hcell
    show List.filter (fun p => !p.isEmpty)
      [processPart (replaceL ESC_AMP AMP_PLACEHOLDER line)] = _
    rw [hcell]
    cases hE : (pyStrip (if endsWithL ROW_TERM (pyRstrip line)
        then pyRstrip ((pyRstrip line).take ((pyRstrip line).length - 2))
        else pyRstrip line)).isEmpty with
    | true => simp [List.filter, hE]
    | false => simp [List.filter, hE]

/-- C9 witness: a line with an escaped separator, a trailing terminator
and surrounding whitespace. -/
theorem extract_no_separator_amended_witness :
    containsAmp (replaceL ESC_AMP AMP_PLACEHOLDER (lstr "  a \\& b \\\\ ")) = false ∧
    occursB PH_STEM (lstr "  a \\& b \\\\ ") = false ∧
    extract_values_from_row (lstr "  a \\& b \\\\ ") true = [] ∧
    extract_values_from_row (lstr "  a \\& b \\\\ ") false = [lstr "a \\& b"] := by
  refine ⟨by decide, by decide, ?_, ?_⟩
  · exact (extract_no_separator_amended (lstr "  a \\& b \\\\ ") (by decide) (by decide)).1
  · have h := (extract_no_separator_amended (lstr "  a \\& b \\\\ ") (by decide) (by decide)).2
    rw [h]
    decide

/-- C4: the claim states that the row/cell extraction strips a trailing
row-terminator token from the last cell only, leaving all other cells'
content intact — in agreement with the function's own comment ("remove only
the *final* `\\` that ends the row").  The code instead strips a trailing
`\\` from every cell that ends with it: on the line `a \\ & b` the first
cell's terminator is removed, producing `["a", "b"]` instead of
`["a \\", "b"]`. -/
theorem extract_strips_terminator_in_every_cell :
    extract_values_from_row (lstr "a \\\\ & b") false = [lstr "a", lstr "b"] ∧
    lstr "a" ≠ pyStrip (lstr "a \\\\") := by decide

/-- C9 fails as stated: on a line with no column separator and without the
label-discarding option, the single returned cell is not the trimmed line —
a trailing row terminator is removed (`"abc \\"` gives cell `"abc"`), and a
literal occurrence of the internal shielding placeholder is rewritten to
`\&`. -/
theorem extract_no_separator_cex :
    extract_values_from_row (lstr "abc \\\\") false = [lstr "abc"] ∧
    lstr "abc" ≠ pyStrip (lstr "abc \\\\") ∧
    extract_values_from_row (lstr "x__AMP__PLACEHOLDER__") false = [lstr "x\\&"] ∧
    lstr "x\\&" ≠ pyStrip (lstr "x__AMP__PLACEHOLDER__") := by decide

/-- C1 fails as stated: two of the supplied fragments have different
header-variable sequences (`["x"]` vs `["y"]`), yet the filter-composite
build emits a composite table instead of failing — no header check exists
in the code (headers are silently taken from the first fragment). -/
theorem composite_build_header_mismatch_emits :
    parsedHeaderVars (parse_panel_file_with_obs (mkFrag (lstr "x") (lstr "-1.555"))) =
      [lstr "x"] ∧
    parsedHeaderVars (parse_panel_file_with_obs (mkFrag (lstr "y") (lstr "-1.555"))) =
      [lstr "y"] ∧
    isOkE (build_composite_panel_filters filesMismatch (lstr "full") (lstr "A")) = true := by
  decide

/-- C1 amended: the composite builds perform no header-agreement check.
Whenever every expected source fragment is present and parses, the filter
build and the FE build emit a composite table, even when the supplied
fragments' header-variable sequences differ (headers are taken from the
first fragment). -/
theorem composite_build_ignores_header_mismatch
    (files : Files) (sample panel filter_tag : Str)
    (h1 : isOkE (gatherFrags parse_panel_file_with_obs files (filterNames sample panel)) = true)
    (h2 : isOkE (gatherFrags parse_panel_file_fe files (feNames sample filter_tag panel)) = true)
    (hdiff : ∃ n1 ∈ filterNames sample panel, ∃ n2 ∈ filterNames sample panel,
      (lookupFile files n1).map (fun t => parsedHeaderVars (parse_panel_file_with_obs t)) ≠
      (lookupFile files n2).map (fun t => parsedHeaderVars (parse_panel_file_with_obs t))) :
    isOkE (build_composite_panel_filters files sample panel) = true ∧
    isOkE (build_composite_panel_fe files sample filter_tag panel) = true := by
  clear hdiff
  constructor
  · unfold build_composite_panel_filters
    revert h1
    cases gatherFrags parse_panel_file_with_obs files (filterNames sample panel) with
    | error e => intro h; exact absurd h (by simp [isOkE])
    | ok ps => intro _; rfl
  · unfold build_composite_panel_fe
    revert h2
    cases gatherFrags parse_panel_file_fe files (feNames sample filter_tag panel) with
    | error e => intro h; exact absurd h (by simp [isOkE])
    | ok ps => intro _; rfl

theorem composite_build_ignores_header_mismatch_witness :
    isOkE (build_composite_panel_filters filesMismatch (lstr "full") (lstr "A")) = true ∧
    isOkE (build_composite_panel_fe filesMismatch (lstr "full") (lstr "both") (lstr "A")) = true :=
  composite_build_ignores_header_mismatch filesMismatch (lstr "full") (lstr "A") (lstr "both")
    (by decide) (by decide) (by decide)

/-- C2 fails as stated: with exactly the three fragment files for filters
none, growth and winsor, the filter-composite build raises
`FileNotFoundError` for the fourth expected source file (filter "both") and
produces no table at all. -/
theorem filter_composite_three_files_fails :
    build_composite_panel_filters filesThree (lstr "full") (lstr "A") =
      .error (.fileNotFound (srcName (lstr "A") (lstr "full") (lstr "both"))) := by
  decide

/-- C2 amended: when the fourth expected fragment (filter "both") is also
supplied, the filter-composite build succeeds, and its three data rows for
the filters none/growth/winsor carry identical coefficient/standard-error
cell content (`\makecell{-1.555 \\ 0.027}` and the shared observation
count) under the correct filter-label texts None/Growth/Winsor. -/
theorem filter_composite_rows_identical :
    isOkE (build_composite_panel_filters filesFour (lstr "full") (lstr "A")) = true ∧
    ((splitlinesL (buildTxt (build_composite_panel_filters filesFour (lstr "full")
        (lstr "A")))).drop 9).take 3 =
      [lstr "   None & \\makecell\x7b-1.555 \\\\ 0.027\x7d & 42\\\\",
       lstr "   Growth & \\makecell\x7b-1.555 \\\\ 0.027\x7d & 42\\\\",
       lstr "   Winsor & \\makecell\x7b-1.555 \\\\ 0.027\x7d & 42\\\\"] ∧
    extract_values_from_row (lstr "   None & \\makecell\x7b-1.555 \\\\ 0.027\x7d & 42\\\\") true =
      extract_values_from_row (lstr "   Growth & \\makecell\x7b-1.555 \\\\ 0.027\x7d & 42\\\\") true ∧
    extract_values_from_row (lstr "   Growth & \\makecell\x7b-1.555 \\\\ 0.027\x7d & 42\\\\") true =
      extract_values_from_row (lstr "   Winsor & \\makecell\x7b-1.555 \\\\ 0.027\x7d & 42\\\\") true := by
  decide

-- ------------------------------------------------------------
-- Helper lemmas for the series computations
-- ------------------------------------------------------------

theorem diffAux_get? {α : Type} [Sub α] :
    ∀ (i : ℕ) (prev : Option α) (xs : List (Option α)) (a b : α),
      xs.get? i = some (some a) → (prev :: xs).get? i = some (some b) →
      (diffAux prev xs).get? i = some (some (a - b)) := by
  intro i
  induction i with
  | zero =>
    intro prev xs a b ha hb
    cases xs with
    | nil => simp at ha
    | cons y ys =>
      simp only [List.get?] at ha hb
      cases ha; cases hb
      rfl
  | succ n ih =>
    intro prev xs a b ha hb
    cases xs with
    | nil => simp at ha
    | cons y ys =>
      simp only [List.get?] at ha hb ⊢
      exact ih y ys a b ha hb

/-- Flag value produced by `highGrowthAux` from the previous and current
asset value. -/
def flagOf (p c : Option ℚ) : ℕ :=
  match p, c with
  | some p, some c => if growthGE1 p c then 1 else 0
  | _, _ => 0

theorem highGrowthAux_get? :
    ∀ (i : ℕ) (prev : Option ℚ) (xs : List (Option ℚ)) (a b : Option ℚ),
      xs.get? i = some a → (prev :: xs).get? i = some b →
      (highGrowthAux prev xs).get? i = some (flagOf b a) := by
  intro i
  induction i with
  | zero =>
    intro prev xs a b ha hb
    cases xs with
    | nil => simp at ha
    | cons y ys =>
      simp only [List.get?] at ha hb
      cases ha; cases hb
      rfl
  | succ n ih =>
    intro prev xs a b ha hb
    cases xs with
    | nil => simp at ha
    | cons y ys =>
      simp only [List.get?] at ha hb ⊢
      exact ih y ys a b ha hb

theorem highGrowthAux_mem :
    ∀ (prev : Option ℚ) (xs : List (Option ℚ)) (x : ℕ),
      x ∈ highGrowthAux prev xs → x = 0 ∨ x = 1 := by
  intro prev xs
  induction xs generalizing prev with
  | nil => intro x hx; simp [highGrowthAux] at hx
  | cons y ys ih =>
    intro x hx
    simp only [highGrowthAux, List.mem_cons] at hx
    rcases hx with hx | hx
    · subst hx
      cases prev with
      | none => left; rfl
      | some p =>
        cases y with
        | none => left; rfl
        | some c =>
          by_cases h : growthGE1 p c
          · right; simp [h]
          · left; simp [h]
    · exact ih y x hx

-- ------------------------------------------------------------
-- C5 — log-difference of log-level variables
-- ------------------------------------------------------------

/-- C5: for a bank series with at least two observed quarters and any
variable of the fixed log-variable list, the log-differenced output is
missing at the first observed quarter; at a later quarter whose own and
prior raw values are positive it equals `ln(value_t) - ln(value_{t-1})`;
and a non-positive raw value is converted to missing before the log is
taken, not treated as an error. -/
theorem log_diff_first_missing_later_difference
    (v : Str) (hv : v ∈ log_variables)
    (vs : List (Option ℚ)) (h2 : 2 ≤ vs.length)
    (i : ℕ) (a b : ℚ) (hi : 1 ≤ i)
    (ha : vs.get? i = some (some a)) (hb : vs.get? (i - 1) = some (some b))
    (hpa : 0 < a) (hpb : 0 < b) :
    (logDiffSeries (fun q : ℚ => Real.log q) vs).get? 0 = some none ∧
    (logDiffSeries (fun q : ℚ => Real.log q) vs).get? i = some (some (Real.log (a : ℝ) - Real.log (b : ℝ))) ∧
    ∀ (c : ℚ), c ≤ 0 → maskLog (fun q : ℚ => Real.log q) (some c) = none := by
  clear hv
  refine ⟨?_, ?_, ?_⟩
  · cases vs with
    | nil => simp at h2
    | cons x xs => rfl
  · obtain ⟨j, rfl⟩ : ∃ j, i = j + 1 := ⟨i - 1, by omega⟩
    simp only [Nat.add_sub_cancel] at hb
    cases vs with
    | nil => simp at ha
    | cons x xs =>
      have hmask : ∀ (o : Option ℚ) (q : ℚ), o = some q → 0 < q →
          maskLog (fun q : ℚ => Real.log q) o = some (Real.log (q : ℝ)) := by
        intro o q ho hq
        subst ho
        simp [maskLog, not_le.mpr hq]
      have hxs : (xs.map (maskLog (fun q : ℚ => Real.log q))).get? j = some (some (Real.log (a : ℝ))) := by
        simp only [List.get?] at ha
        rw [List.get?_map, ha]
        simp [maskLog, not_le.mpr hpa]
      have hprev : ((maskLog (fun q : ℚ => Real.log q) x) :: xs.map (maskLog (fun q : ℚ => Real.log q))).get? j =
          some (some (Real.log (b : ℝ))) := by
        cases j with
        | zero =>
          simp only [List.get?] at hb
          cases hb
          simp [maskLog, not_le.mpr hpb]
        | succ m =>
          simp only [List.get?] at hb ⊢
          rw [List.get?_map, hb]
          simp [maskLog, not_le.mpr hpb]
      show (diffSeries ((x :: xs).map (maskLog (fun q : ℚ => Real.log q)))).get? (j + 1) = _
      simp only [List.map_cons, diffSeries, List.get?]
      exact diffAux_get? j (maskLog (fun q : ℚ => Real.log q) x) (xs.map (maskLog (fun q : ℚ => Real.log q))) _ _ hxs hprev
  · intro c hc
    simp [maskLog, hc]

theorem log_diff_first_missing_later_difference_witness :
    (logDiffSeries (fun q : ℚ => Real.log q) [some 1, some 2]).get? 0 = some none ∧
    (logDiffSeries (fun q : ℚ => Real.log q) [some 1, some 2]).get? 1 = some (some (Real.log ((2 : ℚ) : ℝ) - Real.log ((1 : ℚ) : ℝ))) ∧
    ∀ (c : ℚ), c ≤ 0 → maskLog (fun q : ℚ => Real.log q) (some c) = none :=
  log_diff_first_missing_later_difference (lstr "total_assets") (by decide)
    [some 1, some 2] (by decide) 1 2 1 (by decide) rfl rfl (by norm_num) (by norm_num)

-- ------------------------------------------------------------
-- C6 — high-asset-growth flag
-- ------------------------------------------------------------

/-- C6: the high-growth flag is 1 exactly when the quarter-over-quarter
percent change of total assets is at least 1.0 (prior value present and
non-zero); it is 0 — present, not missing — at a bank's first row and when
the prior-quarter value is missing; and the asset path
`[100, 100, 210, 150]` yields the flag sequence `[0, 0, 1, 0]`. -/
theorem high_growth_flag_spec :
    (∀ (vs : List (Option ℚ)) (i : ℕ) (p c : ℚ),
      vs.get? i = some (some p) → vs.get? (i + 1) = some (some c) → p ≠ 0 →
      (high_asset_growth vs).get? (i + 1) = some (if 1 ≤ (c - p) / p then 1 else 0)) ∧
    (∀ (vs : List (Option ℚ)), vs ≠ [] → (high_asset_growth vs).get? 0 = some 0) ∧
    (∀ (vs : List (Option ℚ)) (i : ℕ) (c : Option ℚ),
      vs.get? i = some none → vs.get? (i + 1) = some c →
      (high_asset_growth vs).get? (i + 1) = some 0) ∧
    high_asset_growth [some 100, some 100, some 210, some 150] = [0, 0, 1, 0] := by
  refine ⟨?_, ?_, ?_, by norm_num [high_asset_growth, highGrowthAux, growthGE1]⟩
  · intro vs i p c hp hc hp0
    cases vs with
    | nil => simp at hp
    | cons x xs =>
      show (0 :: highGrowthAux x xs).get? (i + 1) = _
      simp only [List.get?] at hc ⊢
      have := highGrowthAux_get? i x xs (some c) (some p) hc hp
      rw [this]
      simp only [flagOf, growthGE1, if_neg hp0]
      by_cases h : 1 ≤ (c - p) / p
      · simp [h]
      · simp [h]
  · intro vs hvs
    cases vs with
    | nil => exact absurd rfl hvs
    | cons x xs => rfl
  · intro vs i c hp hc
    cases vs with
    | nil => simp at hp
    | cons x xs =>
      show (0 :: highGrowthAux x xs).get? (i + 1) = _
      simp only [List.get?] at hc ⊢
      rw [highGrowthAux_get? i x xs c none hc hp]
      rfl

theorem high_growth_flag_spec_witness :
    (high_asset_growth [some 100, some 210]).get? 1 =
      some (if 1 ≤ ((210 : ℚ) - 100) / 100 then 1 else 0) ∧
    (high_asset_growth [some 100, some 210]).get? 0 = some 0 ∧
    (high_asset_growth [none, some 5]).get? 1 = some 0 :=
  ⟨high_growth_flag_spec.1 [some 100, some 210] 0 100 210 rfl rfl (by norm_num),
   high_growth_flag_spec.2.1 [some 100, some 210] (by decide),
   high_growth_flag_spec.2.2.1 [none, some 5] 0 (some 5) rfl rfl⟩

-- ------------------------------------------------------------
-- C7 — size-tier indicators are monotone in average assets
-- ------------------------------------------------------------

/-- C7: for two banks of the same sample whose time-averaged asset levels
are both defined, the top-25% and top-10% indicators are monotone: the bank
with the (weakly) larger average gets (weakly) larger flags. -/
theorem size_tier_flags_monotone
    (rows : List SizeRow) (X Y : ℕ) (aX aY : ℚ)
    (hX : avgAssetsOf rows X = some aX) (hY : avgAssetsOf rows Y = some aY)
    (hle : aY ≤ aX) :
    top25_assets rows Y ≤ top25_assets rows X ∧
    top10_assets rows Y ≤ top10_assets rows X := by
  constructor
  · unfold top25_assets
    rw [hX, hY]
    cases hq : q75 rows with
    | none => simp [sizeFlag]
    | some q =>
      simp only [sizeFlag]
      split_ifs with h1 h2
      · exact le_refl _
      · exact absurd (le_trans h1 hle) h2
      · omega
      · exact le_refl _
  · unfold top10_assets
    rw [hX, hY]
    cases hq : q90 rows with
    | none => simp [sizeFlag]
    | some q =>
      simp only [sizeFlag]
      split_ifs with h1 h2
      · exact le_refl _
      · exact absurd (le_trans h1 hle) h2
      · omega
      · exact le_refl _

theorem size_tier_flags_monotone_witness :
    top25_assets [(1, some 1), (2, some 2)] 1 ≤ top25_assets [(1, some 1), (2, some 2)] 2 ∧
    top10_assets [(1, some 1), (2, some 2)] 1 ≤ top10_assets [(1, some 1), (2, some 2)] 2 :=
  size_tier_flags_monotone [(1, some 1), (2, some 2)] 2 1 2 1
    (by simp [avgAssetsOf, meanOpt]) (by simp [avgAssetsOf, meanOpt])
    (by norm_num)

-- ------------------------------------------------------------
-- C8 — concentration merge validation and provenance
-- ------------------------------------------------------------

/-- C8: the concentration merge fails (producing no merged output) exactly
when the `(cert, year, quarter)` key is duplicated in the record dataset or
in the auxiliary dataset; when it succeeds, every output row carries the
provenance marker, which reads `both` exactly when the auxiliary dataset
has a row with the same key. -/
theorem merge_concentration_one_to_one {α β : Type}
    (left : List (MKey × α)) (right : List (MKey × β)) :
    (isOkE (merge_concentration left right) = false ↔
      ¬ (left.map Prod.fst).Nodup ∨ ¬ (right.map Prod.fst).Nodup) ∧
    (∀ out, merge_concentration left right = .ok out →
      ∀ row ∈ out, (row.2.2.2 = MergeInd.both ↔ ∃ r ∈ right, r.1 = row.1)) := by
  unfold merge_concentration
  by_cases hdup : hasDup (left.map Prod.fst) || hasDup (right.map Prod.fst)
  · rw [if_pos hdup]
    constructor
    · simp only [isOkE, true_iff]
      simp only [hasDup, Bool.or_eq_true, decide_eq_true_eq] at hdup
      exact hdup
    · intro out hout
      exact absurd hout (by simp)
  · rw [if_neg hdup]
    constructor
    · simp only [isOkE, Bool.true_eq_false, false_iff, not_or, not_not]
      simp only [hasDup, Bool.or_eq_true, decide_eq_true_eq, not_or, not_not] at hdup
      exact hdup
    · intro out hout row hrow
      cases hout
      simp only [List.mem_map] at hrow
      obtain ⟨kv, _, hkv⟩ := hrow
      cases hfind : right.find? (fun r => r.1 == kv.1) with
      | none =>
        rw [hfind] at hkv
        cases hkv
        simp only [MergeInd.left_only]
        constructor
        · intro h; exact absurd h (by simp)
        · rintro ⟨r, hr, hkey⟩
          have := List.find?_eq_none.mp hfind r hr
          simp only [beq_iff_eq] at this
          exact absurd hkey this
      | some r =>
        rw [hfind] at hkv
        cases hkv
        simp only [true_iff]
        refine ⟨r, List.mem_of_find?_eq_some hfind, ?_⟩
        have := List.find?_some hfind
        simpa [beq_iff_eq] using this

theorem merge_concentration_one_to_one_witness :
    (isOkE (merge_concentration ([((1, 1, 1), 0)] : List (MKey × ℕ))
        ([((1, 1, 1), 5), ((2, 2, 2), 7)] : List (MKey × ℕ))) = false ↔
      ¬ (([((1, 1, 1), 0)] : List (MKey × ℕ)).map Prod.fst).Nodup ∨
      ¬ (([((1, 1, 1), 5), ((2, 2, 2), 7)] : List (MKey × ℕ)).map Prod.fst).Nodup) ∧
    (∀ out, merge_concentration ([((1, 1, 1), 0)] : List (MKey × ℕ))
        ([((1, 1, 1), 5), ((2, 2, 2), 7)] : List (MKey × ℕ)) = .ok out →
      ∀ row ∈ out, (row.2.2.2 = MergeInd.both ↔
        ∃ r ∈ ([((1, 1, 1), 5), ((2, 2, 2), 7)] : List (MKey × ℕ)), r.1 = row.1)) :=
  merge_concentration_one_to_one [((1, 1, 1), 0)] [((1, 1, 1), 5), ((2, 2, 2), 7)]

-- ------------------------------------------------------------
-- C10 — indicator columns are always 0/1, never missing
-- ------------------------------------------------------------

/-- C10: the four indicator columns are always exactly 0 or 1 — never
missing — including for banks whose asset values are missing in every
quarter, whose size-tier flags are then 0. -/
theorem indicator_columns_binary :
    (∀ (rows : List SizeRow) (b : ℕ),
      top25_assets rows b = 0 ∨ top25_assets rows b = 1) ∧
    (∀ (rows : List SizeRow) (b : ℕ),
      top10_assets rows b = 0 ∨ top10_assets rows b = 1) ∧
    (∀ (rows : List SizeRow) (b : ℕ), avgAssetsOf rows b = none →
      top25_assets rows b = 0 ∧ top10_assets rows b = 0) ∧
    (∀ (vs : List (Option ℚ)) (x : ℕ), x ∈ high_asset_growth vs → x = 0 ∨ x = 1) ∧
    (∀ (y : ℤ), post2008 y = 0 ∨ post2008 y = 1) := by
  have hflag : ∀ (a c : Option ℚ), sizeFlag a c = 0 ∨ sizeFlag a c = 1 := by
    intro a c
    cases a with
    | none => left; rfl
    | some x =>
      cases c with
      | none => left; rfl
      | some q =>
        by_cases h : q ≤ x
        · right; simp [sizeFlag, h]
        · left; simp [sizeFlag, h]
  refine ⟨fun rows b => hflag _ _, fun rows b => hflag _ _, ?_, ?_, ?_⟩
  · intro rows b h
    unfold top25_assets top10_assets
    rw [h]
    exact ⟨rfl, rfl⟩
  · intro vs x hx
    cases vs with
    | nil => simp [high_asset_growth] at hx
    | cons y ys =>
      simp only [high_asset_growth, List.mem_cons] at hx
      rcases hx with hx | hx
      · left; exact hx
      · exact highGrowthAux_mem y ys x hx
  · intro y
    by_cases h : 2009 ≤ y
    · right; simp [post2008, h]
    · left; simp [post2008, h]

theorem indicator_columns_binary_witness :
    (top25_assets [(1, none)] 1 = 0 ∨ top25_assets [(1, none)] 1 = 1) ∧
    (top25_assets [(1, none)] 1 = 0 ∧ top10_assets [(1, none)] 1 = 0) ∧
    ((1 : ℕ) = 0 ∨ (1 : ℕ) = 1) ∧
    (post2008 2009 = 0 ∨ post2008 2009 = 1) :=
  ⟨indicator_columns_binary.1 [(1, none)] 1,
   indicator_columns_binary.2.2.1 [(1, none)] 1 (by decide),
   indicator_columns_binary.2.2.2.1 [some 100, some 210] 1
     (by norm_num [high_asset_growth, highGrowthAux, growthGE1]),
   indicator_columns_binary.2.2.2.2 2009⟩

end FEII
